import Mathlib

/-! # Verification of `examples/cpp/addAndQuery.cpp`

Shallow embedding of the two parts of the file:

* `ParallelFor` (lines 7-59): the sequential path for `numThreads == 1` and the
  worker pool with the shared atomic cursor `current`, the mutex-protected
  `lastException` slot, and the final join / rethrow;
* `main` (lines 61-214): the construction of the two backends, the benchmark
  loop with its timed calls and log lines, and the teardown.

Conventions of the embedding:

* `size_t` values are natural numbers below `SIZE = 2 ^ 64`; every increment of a `size_t`
  is taken modulo `SIZE`.  `int` has 32 bits.
* The callback `fn` is a function from `(index, workerId)` to `none` (the call returns) or
  `some e` (the call raises `e`).
* The accesses to `current` are atomic and `lastException` is written under
  `lastExceptMutex`, so an execution of the workers is an interleaving of their shared
  actions.  The interleaving is an explicit list of worker numbers: one entry lets that
  worker perform its next shared action.  A worker that was not yet started by the loop of
  line 26 is a worker that has not been scheduled yet.
* The backends (`hnswlib.h`, `bruteforce.h`) are outside the file: a run of `main` takes the
  sizes of their results and the measured durations as parameters, and the run described
  is the one in which no backend call raises.
-/

namespace Hnsw

/-! ## ParallelFor -/

/-- Number of values of the type `size_t`. -/
def SIZE : Nat := 2 ^ 64

/-- The callback: `fn id workerId = none` when the call returns and `some e` when it
raises `e`. -/
abbrev WorkFn (ε : Type) := Nat → Nat → Option ε

/-- What a call of `ParallelFor` did: the calls of `fn` as pairs `(index, workerId)` in the
order they were made, and the error propagated to the caller, if any. -/
structure Outcome (ε : Type) where
  calls : List (Nat × Nat)
  raised : Option ε
  deriving DecidableEq, Repr

/-- Lines 14-16: `for (size_t id = start; id < end; id++) fn(id, 0);` run in the calling
thread.  A raising call leaves the loop at once with that error.  `fuel` bounds the
number of loop tests; `none` means the fuel ran out. -/
def seqLoop {ε : Type} (fn : WorkFn ε) (end_ : Nat) : Nat → Nat → Option (Outcome ε)
  | 0, _ => none
  | fuel + 1, id =>
    if id < end_ then
      match fn id 0 with
      | some e => some ⟨[(id, 0)], some e⟩
      | none =>
        (seqLoop fn end_ fuel ((id + 1) % SIZE)).map
          (fun r => ⟨(id, 0) :: r.calls, r.raised⟩)
    else some ⟨[], none⟩

/-- Where a worker thread stands in the lambda of lines 27-50. -/
inductive Pc (ε : Type)
  /-- About to execute `current.fetch_add(1)` (line 29). -/
  | fetch
  /-- Holds the claimed index `id < end` and is about to call `fn(id, threadId)` (line 36). -/
  | call (id : Nat)
  /-- Is in the handler with the raised error and waits for `lastExceptMutex` (line 38). -/
  | caught (e : ε)
  /-- Holds the mutex, has assigned `lastException` (line 39), is about to execute
  `current = end` (line 46). -/
  | locked
  /-- Left the loop by `break` (line 32 or 47). -/
  | done
  deriving DecidableEq, Repr

/-- The shared actions of the workers, recorded in the order they happen. -/
inductive Event (ε : Type)
  /-- Worker `w` executed `current.fetch_add(1)` and got `id`. -/
  | fetchAdd (w id : Nat)
  /-- Worker `w` called `fn(id, w)`. -/
  | call (w id : Nat)
  /-- Worker `w` assigned the error `e` to `lastException`. -/
  | capture (w : Nat) (e : ε)
  /-- Worker `w` executed `current = end`. -/
  | store (w : Nat)
  deriving DecidableEq, Repr

/-- The shared variables of the `else` branch (lines 18-24), the position of every worker,
and the record of what happened so far. -/
structure State (ε : Type) where
  current : Nat
  lastException : Option ε
  lastExceptMutex : Bool
  threads : List (Pc ε)
  log : List (Event ε)
  deriving DecidableEq, Repr

/-- The state after lines 18-27: cursor at `start`, empty error slot, free mutex and
`numThreads` workers that have not run yet. -/
def init {ε : Type} (start numThreads : Nat) : State ε :=
  ⟨start, none, false, List.replicate numThreads Pc.fetch, []⟩

/-- The next shared action of worker `w`; `none` when the worker has finished, does not
exist, or waits for the mutex. -/
def step {ε : Type} (fn : WorkFn ε) (end_ : Nat) (s : State ε) (w : Nat) : Option (State ε) :=
  match s.threads[w]? with
  | none => none
  | some Pc.fetch =>
    let id := s.current
    some { s with
      current := (s.current + 1) % SIZE
      threads := s.threads.set w (if id ≥ end_ then Pc.done else Pc.call id)
      log := s.log ++ [Event.fetchAdd w id] }
  | some (Pc.call id) =>
    match fn id w with
    | none => some { s with
        threads := s.threads.set w Pc.fetch
        log := s.log ++ [Event.call w id] }
    | some e => some { s with
        threads := s.threads.set w (Pc.caught e)
        log := s.log ++ [Event.call w id] }
  | some (Pc.caught e) =>
    if s.lastExceptMutex then none
    else some { s with
      lastExceptMutex := true
      lastException := some e
      threads := s.threads.set w Pc.locked
      log := s.log ++ [Event.capture w e] }
  | some Pc.locked =>
    some { s with
      current := end_
      lastExceptMutex := false
      threads := s.threads.set w Pc.done
      log := s.log ++ [Event.store w] }
  | some Pc.done => none

/-- Runs the workers along a schedule; `none` when the schedule names a worker that cannot
move. -/
def run {ε : Type} (fn : WorkFn ε) (end_ : Nat) : State ε → List Nat → Option (State ε)
  | s, [] => some s
  | s, w :: sched =>
    match step fn end_ s w with
    | none => none
    | some s' => run fn end_ s' sched

/-- The calls of `fn` made so far, as pairs `(index, workerId)`. -/
def calls {ε : Type} (s : State ε) : List (Nat × Nat) :=
  s.log.filterMap (fun ev => match ev with
    | Event.call w id => some (id, w)
    | _ => none)

/-- The errors assigned to `lastException` so far, in the order of assignment. -/
def captures {ε : Type} (s : State ε) : List ε :=
  s.log.filterMap (fun ev => match ev with
    | Event.capture _ e => some e
    | _ => none)

/-- Every worker has left its loop, so the joins of lines 52-54 return. -/
def joined {ε : Type} (s : State ε) : Bool :=
  s.threads.all (fun p => match p with
    | Pc.done => true
    | _ => false)

/-- The function `ParallelFor` (lines 8-59).  `hardware_concurrency` is the value reported by
`std::thread::hardware_concurrency()`, `fuel` bounds the sequential loop and `sched` is
the interleaving of the workers.  The result is `none` when the fuel runs out or when
`sched` is not a complete execution of the workers. -/
def ParallelFor {ε : Type} (hardware_concurrency : Nat) (start end_ numThreads : Nat)
    (fn : WorkFn ε) (fuel : Nat) (sched : List Nat) : Option (Outcome ε) :=
  let numThreads := if numThreads ≤ 0 then hardware_concurrency else numThreads
  if numThreads = 1 then
    seqLoop fn end_ fuel start
  else
    match run fn end_ (init start numThreads) sched with
    | none => none
    | some s => if joined s then some ⟨calls s, s.lastException⟩ else none

/-- A callback that never raises. -/
def neverRaises : WorkFn Unit := fun _ _ => none

/-- A callback that raises for the index `j` only; the error carries the index. -/
def raisesAt (j : Nat) : WorkFn Nat := fun i _ => if i = j then some i else none

/-- A callback that raises for every index; the error carries the index. -/
def alwaysRaises : WorkFn Nat := fun i _ => some i

/-- The schedule in which worker `w` alone claims and executes `k` indices in a row. -/
def soloSched (w : Nat) : Nat → List Nat
  | 0 => []
  | k + 1 => w :: w :: soloSched w k

/-- A complete schedule of two workers for `start = end = 2 ^ 64 - 1`: worker 0 performs its
only `fetch_add`, then worker 1 runs alone until it leaves its loop. -/
def wrapSched : List Nat :=
  0 :: (soloSched 1 (2 ^ 64 - 1) ++ [1])

/-! ### Quantities and invariants used in the proofs about the worker pool -/

/-- The index a worker holds between its `fetch_add` and its call of `fn`. -/
def pcIds {ε : Type} : Pc ε → List Nat
  | Pc.call id => [id]
  | _ => []

/-- Counts a worker that may still execute `fetch_add`: 1 before the `fetch_add` or the call
of `fn`, 0 in the handler and after `break`. -/
def pcLive {ε : Type} : Pc ε → Nat
  | Pc.fetch => 1
  | Pc.call _ => 1
  | _ => 0

/-- The indices that are claimed and not yet passed to `fn`. -/
def pending {ε : Type} (s : State ε) : List Nat :=
  s.threads.flatMap pcIds

/-- The number of workers that may still execute `fetch_add`. -/
def live {ε : Type} (s : State ε) : Nat :=
  (s.threads.map pcLive).sum

/-- The values below `end` returned by `fetch_add` so far, in order: the claimed indices. -/
def claimedIds {ε : Type} (end_ : Nat) (s : State ε) : List Nat :=
  s.log.filterMap (fun ev => match ev with
    | Event.fetchAdd _ id => if id < end_ then some id else none
    | _ => none)

/-- Some worker has executed `current = end`. -/
def hasStore {ε : Type} (s : State ε) : Bool :=
  s.log.any (fun ev => match ev with
    | Event.store _ => true
    | _ => false)

/-- The invariant of the worker pool when the cursor cannot wrap
(`max start end + numThreads ≤ SIZE`): the claimed indices are `start, start + 1, ...` in
order, all below `end`; each of them has been passed to `fn` once or is held by a worker;
and the cursor is either the next index to claim, or at least `end` with room for the
remaining `fetch_add`s, or no worker will execute `fetch_add` again. -/
structure PoolInv {ε : Type} (start end_ t : Nat) (s : State ε) : Prop where
  len : s.threads.length = t
  consecutive : claimedIds end_ s = List.range' start (claimedIds end_ s).length
  bound : (claimedIds end_ s).length ≤ end_ - start
  perm : List.Perm ((calls s).map Prod.fst ++ pending s) (claimedIds end_ s)
  phase :
    (hasStore s = false ∧ s.current < end_ ∧
        s.current = start + (claimedIds end_ s).length ∧ ∀ p ∈ s.threads, p ≠ Pc.done) ∨
    (((end_ ≤ s.current ∧ s.current + live s ≤ max start end_ + t) ∨ live s = 0) ∧
      (hasStore s = false → (claimedIds end_ s).length = end_ - start))

/-- What holds in every state of the pool when `fn` never raises: no worker is in the
handler, nothing was stored into the cursor, and the error slot is empty. -/
structure QuietInv {ε : Type} (s : State ε) : Prop where
  pcs : ∀ p ∈ s.threads, p = Pc.fetch ∨ (∃ id, p = Pc.call id) ∨ p = Pc.done
  noStore : hasStore s = false
  noError : s.lastException = none

/-- How the error slot, the captured errors and the raising calls of `fn` are related in
every state of the pool. -/
structure RaiseInv {ε : Type} (fn : WorkFn ε) (s : State ε) : Prop where
  slot : s.lastException = (captures s).getLast?
  captured : ∀ e ∈ captures s, ∃ id w, (id, w) ∈ calls s ∧ fn id w = some e
  caught : ∀ (w : Nat) (e : ε), s.threads[w]? = some (Pc.caught e) →
    ∃ id, (id, w) ∈ calls s ∧ fn id w = some e
  raised : ∀ (id w : Nat), (id, w) ∈ calls s → fn id w ≠ none →
    (∃ e, s.threads[w]? = some (Pc.caught e)) ∨ captures s ≠ []
  locked : ∀ (w : Nat), s.threads[w]? = some Pc.locked → captures s ≠ []
  stored : hasStore s = true → captures s ≠ []

/-- The weight of a worker in the termination measure: the number of steps it can still
take on its own, with room for the `2 * end` by which the cursor part of the measure can
grow at its last `fetch_add`. -/
def pcWeight {ε : Type} (end_ : Nat) : Pc ε → Nat
  | Pc.fetch => 2 * end_ + 3
  | Pc.call _ => 2 * end_ + 4
  | Pc.caught _ => 2
  | Pc.locked => 1
  | Pc.done => 0

/-- The termination measure of the pool: twice the distance of the cursor to `end` plus
the weights of the workers.  Every step makes it smaller. -/
def measure {ε : Type} (end_ : Nat) (s : State ε) : Nat :=
  2 * (end_ - s.current) + (s.threads.map (pcWeight end_)).sum

/-- The mutex is held only by a worker between its assignment to `lastException` and its
store into the cursor. -/
def MutexInv {ε : Type} (s : State ε) : Prop :=
  s.lastExceptMutex = true → ∃ w : Nat, s.threads[w]? = some Pc.locked

/-- The error a worker holds between the raising call of `fn` and its assignment to
`lastException`. -/
def pcErrs {ε : Type} : Pc ε → List ε
  | Pc.caught e => [e]
  | _ => []

/-- The errors that were raised and are not yet assigned to `lastException`. -/
def caughtErrs {ε : Type} (s : State ε) : List ε :=
  s.threads.flatMap pcErrs

/-- The errors raised by a sequence of calls `(index, workerId)` of `fn`, in the order of
the calls. -/
def raisedErrs {ε : Type} (fn : WorkFn ε) (cs : List (Nat × Nat)) : List ε :=
  cs.filterMap (fun c => fn c.1 c.2)

/-! ## main -/

/-- The two search backends: `alg_hnsw` (approximate) and `brt_search` (exact). -/
inductive Backend
  | HNSW
  | Bruteforce
  deriving DecidableEq, Repr

/-- The two dataset buffers allocated in lines 88-89. -/
inductive Buffer
  | data
  | data_query
  deriving DecidableEq, Repr

/-- The first word of a log line. -/
inductive OpKind
  | Insertion
  | Query
  deriving DecidableEq, Repr

/-- One line of `output.txt`:
`<OpKind> <index> time for <BackendName>: <milliseconds> milliseconds`. -/
structure LogLine (τ : Type) where
  kind : OpKind
  index : Nat
  backend : Backend
  milliseconds : τ
  deriving DecidableEq, Repr

/-- What `main` does to the backends, the buffers, the console and the log, in program
order. -/
inductive MainEvent (τ : Type)
  /-- The `new` of a backend (lines 75-76). -/
  | newBackend (b : Backend)
  /-- The `new float[...]` of a buffer (lines 88-89). -/
  | newBuffer (buf : Buffer)
  /-- The timed call `addPoint(data_query + i * dim, i)` on backend `b` (lines 133, 138). -/
  | addPoint (b : Backend) (i : Nat)
  /-- The timed call `brt_search->searchwithDistance(data_query + i * dim, k)` (line 148). -/
  | searchwithDistance (i k : Nat)
  /-- The timed call `alg_hnsw->searchKnn(data_query + i * dim, result_num)` (line 155); `k`
  is the value of the `int` argument `result_num`. -/
  | searchKnn (i : Nat) (k : Int)
  /-- The value of `result_num` printed on the console (lines 152, 159). -/
  | cout (result_num : Int)
  /-- One line written to `outFile` (lines 142-143, 161-162). -/
  | outFile (line : LogLine τ)
  /-- The `delete[]` of a buffer (line 211). -/
  | deleteBuffer (buf : Buffer)
  /-- The `delete` of a backend (line 212). -/
  | deleteBackend (b : Backend)
  deriving DecidableEq, Repr

/-- What the run takes from outside `main`: the size of the result of the exact query of
step `i`, the size of the result of the approximate query of step `i` asked for `k`
neighbours (`k` is the value of the `int` argument), and the measured duration of the timed
call of a backend in step `i`. -/
structure Backends (τ : Type) where
  brt_size : Nat → Nat
  hnsw_size : Nat → Int → Nat
  elapsed : Backend → Nat → τ

/-- Conversion of a `size_t` value to the 32-bit `int` variable `result_num`
(lines 151, 158): the value modulo `2 ^ 32`, read as two's complement. -/
def toInt (n : Nat) : Int :=
  if n % 2 ^ 32 < 2 ^ 31 then ((n % 2 ^ 32 : Nat) : Int) else ((n % 2 ^ 32 : Nat) : Int) - 2 ^ 32

/-- The body of the benchmark loop for step `i` (lines 128-163). -/
def benchStep {τ : Type} (env : Backends τ) (i : Nat) : List (MainEvent τ) :=
  let is_insertion := (i % 1 != 0)
  if is_insertion then
    [ MainEvent.addPoint Backend.HNSW i,
      MainEvent.addPoint Backend.Bruteforce i,
      MainEvent.outFile ⟨OpKind.Insertion, i, Backend.HNSW, env.elapsed Backend.HNSW i⟩,
      MainEvent.outFile
        ⟨OpKind.Insertion, i, Backend.Bruteforce, env.elapsed Backend.Bruteforce i⟩ ]
  else
    let result_brt := env.brt_size i
    let result_num : Int := toInt result_brt
    let result_hnsw := env.hnsw_size i result_num
    let result_num' : Int := toInt result_hnsw
    [ MainEvent.searchwithDistance i 33,
      MainEvent.cout result_num,
      MainEvent.searchKnn i result_num,
      MainEvent.cout result_num',
      MainEvent.outFile ⟨OpKind.Query, i, Backend.HNSW, env.elapsed Backend.HNSW i⟩,
      MainEvent.outFile ⟨OpKind.Query, i, Backend.Bruteforce, env.elapsed Backend.Bruteforce i⟩ ]

/-- The benchmark loop `for (int i = 1; i < 100; i++)` (lines 127-164). -/
def benchLoop {τ : Type} (env : Backends τ) : List (MainEvent τ) :=
  (List.range' 1 99).flatMap (benchStep env)

/-- The run of `main` that reaches `return 0`: construction (lines 75-76), allocation
(lines 88-89), the benchmark loop, and the teardown (lines 211-212). -/
def mainEvents {τ : Type} (env : Backends τ) : List (MainEvent τ) :=
  [ MainEvent.newBackend Backend.HNSW,
    MainEvent.newBackend Backend.Bruteforce,
    MainEvent.newBuffer Buffer.data,
    MainEvent.newBuffer Buffer.data_query ]
  ++ benchLoop env
  ++ [ MainEvent.deleteBuffer Buffer.data,
       MainEvent.deleteBackend Backend.HNSW ]

/-- The timed backend calls of a run, in the order they are issued. -/
def timedCalls {τ : Type} (evs : List (MainEvent τ)) : List (OpKind × Nat × Backend) :=
  evs.filterMap (fun ev => match ev with
    | MainEvent.addPoint b i => some (OpKind.Insertion, i, b)
    | MainEvent.searchwithDistance i _ => some (OpKind.Query, i, Backend.Bruteforce)
    | MainEvent.searchKnn i _ => some (OpKind.Query, i, Backend.HNSW)
    | _ => none)

/-- The lines of the output log, in the order they are written, without the durations. -/
def logLines {τ : Type} (evs : List (MainEvent τ)) : List (OpKind × Nat × Backend) :=
  evs.filterMap (fun ev => match ev with
    | MainEvent.outFile l => some (l.kind, l.index, l.backend)
    | _ => none)

/-- The `addPoint` calls of a run. -/
def addPointCalls {τ : Type} (evs : List (MainEvent τ)) : List (Backend × Nat) :=
  evs.filterMap (fun ev => match ev with
    | MainEvent.addPoint b i => some (b, i)
    | _ => none)

/-- The steps at which the exact backend is queried, in order. -/
def exactQueries {τ : Type} (evs : List (MainEvent τ)) : List Nat :=
  evs.filterMap (fun ev => match ev with
    | MainEvent.searchwithDistance i _ => some i
    | _ => none)

/-- The steps at which the approximate backend is queried, with the neighbour count
passed to `searchKnn`, in order. -/
def knnQueries {τ : Type} (evs : List (MainEvent τ)) : List (Nat × Int) :=
  evs.filterMap (fun ev => match ev with
    | MainEvent.searchKnn i k => some (i, k)
    | _ => none)

/-- The backends alive after a sequence of events. -/
def aliveAfter {τ : Type} : List Backend → List (MainEvent τ) → List Backend
  | alive, [] => alive
  | alive, MainEvent.newBackend b :: evs => aliveAfter (alive ++ [b]) evs
  | alive, MainEvent.deleteBackend b :: evs => aliveAfter (alive.erase b) evs
  | alive, _ :: evs => aliveAfter alive evs

/-- Every buffer release of the run together with the backends alive at that moment. -/
def releases {τ : Type} : List Backend → List (MainEvent τ) → List (Buffer × List Backend)
  | _, [] => []
  | alive, MainEvent.newBackend b :: evs => releases (alive ++ [b]) evs
  | alive, MainEvent.deleteBackend b :: evs => releases (alive.erase b) evs
  | alive, MainEvent.deleteBuffer buf :: evs => (buf, alive) :: releases alive evs
  | alive, _ :: evs => releases alive evs

/-- The number of points of the index (line 63). -/
def max_elements : Nat := 500000

/-- Modelled from the spec: the sizes the exact backend can return.  `bruteforce.h` is not
part of the file; by the spec (section 6) a query returns at most `k` results, here
`k = 33` (line 148), and no result set is larger than the index, which holds
`max_elements` points.  The bound stated is the larger of the two. -/
def receivable {τ : Type} (env : Backends τ) : Prop :=
  ∀ i, 1 ≤ i → i < 100 → env.brt_size i ≤ max_elements

/-- A run in which every exact query returns 33 results and the approximate backend
returns 30. -/
def smallExact : Backends Unit :=
  ⟨fun _ => 33, fun _ _ => 30, fun _ _ => ()⟩

/-! ## Theorems about main -/

theorem benchStep_query {τ : Type} (env : Backends τ) (i : Nat) :
    benchStep env i =
      [ MainEvent.searchwithDistance i 33,
        MainEvent.cout (toInt (env.brt_size i)),
        MainEvent.searchKnn i (toInt (env.brt_size i)),
        MainEvent.cout (toInt (env.hnsw_size i (toInt (env.brt_size i)))),
        MainEvent.outFile ⟨OpKind.Query, i, Backend.HNSW, env.elapsed Backend.HNSW i⟩,
        MainEvent.outFile
          ⟨OpKind.Query, i, Backend.Bruteforce, env.elapsed Backend.Bruteforce i⟩ ] := by
  simp [benchStep, Nat.mod_one]

theorem addPointCalls_flatMap {τ : Type} (env : Backends τ) (l : List Nat) :
    addPointCalls (l.flatMap (benchStep env)) = [] := by
  induction l with
  | nil => rfl
  | cons i l ih =>
    simp only [addPointCalls] at ih
    simp [addPointCalls, List.flatMap_cons, List.filterMap_append, benchStep_query, ih]

theorem exactQueries_flatMap {τ : Type} (env : Backends τ) (l : List Nat) :
    exactQueries (l.flatMap (benchStep env)) = l := by
  induction l with
  | nil => rfl
  | cons i l ih =>
    simp only [exactQueries] at ih
    simp [exactQueries, List.flatMap_cons, List.filterMap_append, benchStep_query, ih]

theorem knnQueries_flatMap {τ : Type} (env : Backends τ) (l : List Nat) :
    knnQueries (l.flatMap (benchStep env)) =
      l.map (fun i => (i, toInt (env.brt_size i))) := by
  induction l with
  | nil => rfl
  | cons i l ih =>
    simp only [knnQueries] at ih
    simp [knnQueries, List.flatMap_cons, List.filterMap_append, benchStep_query, ih]

theorem knnQueries_main {τ : Type} (env : Backends τ) :
    knnQueries (mainEvents env) =
      (List.range' 1 99).map (fun i => (i, toInt (env.brt_size i))) := by
  have h := knnQueries_flatMap env (List.range' 1 99)
  simp only [knnQueries] at h
  simp only [knnQueries, mainEvents, benchLoop, List.filterMap_append, h]
  simp

/-- C10: the classification predicate `is_insertion = (i % 1 != 0)` is false for every
step, so the run calls `addPoint` on neither backend, and it issues exactly one exact
query and one approximate query for each of the steps 1, ..., 99 (none for step 0). -/
theorem every_step_is_query {τ : Type} (env : Backends τ) :
    (∀ i : Nat, (i % 1 != 0) = false) ∧
    addPointCalls (mainEvents env) = [] ∧
    exactQueries (mainEvents env) = List.range' 1 99 ∧
    (knnQueries (mainEvents env)).map Prod.fst = List.range' 1 99 := by
  refine ⟨fun i => by simp [Nat.mod_one], ?_, ?_, ?_⟩
  · have h := addPointCalls_flatMap env (List.range' 1 99)
    simp only [addPointCalls] at h
    simp only [addPointCalls, mainEvents, benchLoop, List.filterMap_append, h]
    simp
  · have h := exactQueries_flatMap env (List.range' 1 99)
    simp only [exactQueries] at h
    simp only [exactQueries, mainEvents, benchLoop, List.filterMap_append, h]
    simp
  · rw [knnQueries_main, List.map_map]
    simp [Function.comp_def]

theorem toInt_of_lt {n : Nat} (h : n < 2 ^ 31) : toInt n = (n : Int) := by
  have h1 : n % 2 ^ 32 = n := Nat.mod_eq_of_lt (by omega)
  unfold toInt
  rw [h1, if_pos h]

/-- C7: at every Query step, for every size the exact backend can return, the neighbour
count passed to `searchKnn` is the size of the exact result set of that step: the `int`
variable `result_num` holds the size unchanged. -/
theorem knn_count_eq_exact_size {τ : Type} (env : Backends τ) (h : receivable env) :
    knnQueries (mainEvents env) =
      (List.range' 1 99).map (fun i => (i, (env.brt_size i : Int))) := by
  rw [knnQueries_main]
  apply List.map_congr_left
  intro i hi
  rw [List.mem_range'_1] at hi
  have hle := h i hi.1 (by omega)
  rw [toInt_of_lt (by unfold max_elements at hle; omega)]

/-- C7 at a run whose exact queries return 33 results each. -/
theorem knn_count_eq_exact_size_witness :
    receivable smallExact ∧
    knnQueries (mainEvents smallExact) =
      (List.range' 1 99).map (fun i => (i, (smallExact.brt_size i : Int))) :=
  ⟨fun _ _ _ => by simp [smallExact, max_elements],
    knn_count_eq_exact_size smallExact (fun _ _ _ => by simp [smallExact, max_elements])⟩

theorem logLines_flatMap {τ : Type} (env : Backends τ) (l : List Nat) :
    logLines (l.flatMap (benchStep env)) =
      l.flatMap (fun i => [(OpKind.Query, i, Backend.HNSW), (OpKind.Query, i, Backend.Bruteforce)]) := by
  induction l with
  | nil => rfl
  | cons i l ih =>
    simp only [logLines] at ih
    simp [logLines, List.flatMap_cons, List.filterMap_append, benchStep_query, ih]

theorem timedCalls_flatMap {τ : Type} (env : Backends τ) (l : List Nat) :
    timedCalls (l.flatMap (benchStep env)) =
      l.flatMap (fun i => [(OpKind.Query, i, Backend.Bruteforce), (OpKind.Query, i, Backend.HNSW)]) := by
  induction l with
  | nil => rfl
  | cons i l ih =>
    simp only [timedCalls] at ih
    simp [timedCalls, List.flatMap_cons, List.filterMap_append, benchStep_query, ih]

theorem swapped_pairs_perm (l : List Nat) :
    List.Perm
      (l.flatMap (fun i => [(OpKind.Query, i, Backend.HNSW), (OpKind.Query, i, Backend.Bruteforce)]))
      (l.flatMap (fun i => [(OpKind.Query, i, Backend.Bruteforce), (OpKind.Query, i, Backend.HNSW)])) := by
  induction l with
  | nil => exact List.Perm.refl _
  | cons i l ih =>
    simp only [List.flatMap_cons, List.cons_append, List.nil_append]
    exact (List.Perm.swap _ _ _).trans ((ih.cons _).cons _)

theorem logLines_main {τ : Type} (env : Backends τ) :
    logLines (mainEvents env) =
      (List.range' 1 99).flatMap
        (fun i => [(OpKind.Query, i, Backend.HNSW), (OpKind.Query, i, Backend.Bruteforce)]) := by
  have h := logLines_flatMap env (List.range' 1 99)
  simp only [logLines] at h
  simp only [logLines, mainEvents, benchLoop, List.filterMap_append, h]
  simp

theorem timedCalls_main {τ : Type} (env : Backends τ) :
    timedCalls (mainEvents env) =
      (List.range' 1 99).flatMap
        (fun i => [(OpKind.Query, i, Backend.Bruteforce), (OpKind.Query, i, Backend.HNSW)]) := by
  have h := timedCalls_flatMap env (List.range' 1 99)
  simp only [timedCalls] at h
  simp only [timedCalls, mainEvents, benchLoop, List.filterMap_append, h]
  simp

/-- C8, as stated, fails: in step 1 the exact backend is called first and the approximate
backend second, but the HNSW line is written before the Bruteforce line, so the log is not
the sequence of the timed calls. -/
theorem log_not_in_issuance_order :
    (timedCalls (mainEvents smallExact)).take 2 =
      [(OpKind.Query, 1, Backend.Bruteforce), (OpKind.Query, 1, Backend.HNSW)] ∧
    (logLines (mainEvents smallExact)).take 2 =
      [(OpKind.Query, 1, Backend.HNSW), (OpKind.Query, 1, Backend.Bruteforce)] ∧
    logLines (mainEvents smallExact) ≠ timedCalls (mainEvents smallExact) := by
  rw [logLines_main, timedCalls_main]
  decide

/-- C8, amended: the log holds exactly one line per timed backend call (it is a
rearrangement of the timed calls), the lines of step `i` come before those of step
`i + 1`, and within every step the HNSW line comes before the Bruteforce line, while the
timed calls of the step are issued in the order Bruteforce, HNSW. -/
theorem log_lines_hnsw_first {τ : Type} (env : Backends τ) :
    List.Perm (logLines (mainEvents env)) (timedCalls (mainEvents env)) ∧
    logLines (mainEvents env) =
      (List.range' 1 99).flatMap
        (fun i => [(OpKind.Query, i, Backend.HNSW), (OpKind.Query, i, Backend.Bruteforce)]) ∧
    timedCalls (mainEvents env) =
      (List.range' 1 99).flatMap
        (fun i => [(OpKind.Query, i, Backend.Bruteforce), (OpKind.Query, i, Backend.HNSW)]) := by
  refine ⟨?_, logLines_main env, timedCalls_main env⟩
  rw [logLines_main, timedCalls_main]
  exact swapped_pairs_perm _

theorem releases_flatMap {τ : Type} (env : Backends τ) (l : List Nat) (alive : List Backend)
    (rest : List (MainEvent τ)) :
    releases alive (l.flatMap (benchStep env) ++ rest) = releases alive rest := by
  induction l with
  | nil => rfl
  | cons i l ih =>
    simp only [List.flatMap_cons, List.append_assoc, benchStep_query, List.cons_append,
      List.nil_append, releases, ih]

theorem aliveAfter_flatMap {τ : Type} (env : Backends τ) (l : List Nat) (alive : List Backend)
    (rest : List (MainEvent τ)) :
    aliveAfter alive (l.flatMap (benchStep env) ++ rest) = aliveAfter alive rest := by
  induction l with
  | nil => rfl
  | cons i l ih =>
    simp only [List.flatMap_cons, List.append_assoc, benchStep_query, List.cons_append,
      List.nil_append, aliveAfter, ih]

theorem releases_main {τ : Type} (env : Backends τ) :
    releases [] (mainEvents env) = [(Buffer.data, [Backend.HNSW, Backend.Bruteforce])] := by
  have h : ∀ loop rest : List (MainEvent τ),
      releases []
        ([ MainEvent.newBackend Backend.HNSW, MainEvent.newBackend Backend.Bruteforce,
           MainEvent.newBuffer Buffer.data, MainEvent.newBuffer Buffer.data_query ]
          ++ loop ++ rest) =
      releases [Backend.HNSW, Backend.Bruteforce] (loop ++ rest) := fun _ _ => rfl
  unfold mainEvents benchLoop
  rw [h, releases_flatMap]
  rfl

/-- C9, as stated, fails: the run releases `data` while both backends are alive. -/
theorem buffer_released_while_backends_alive :
    releases [] (mainEvents smallExact) = [(Buffer.data, [Backend.HNSW, Backend.Bruteforce])] ∧
    ¬ (∀ r ∈ releases [] (mainEvents smallExact), r.2 = []) := by
  rw [releases_main]
  decide

/-- C9, amended: in every run of `main` that reaches `return 0`, the buffer `data` is
released while both backend handles, `alg_hnsw` and `brt_search`, are still alive: the
`delete[]` of `data` comes before the `delete` of `alg_hnsw`. -/
theorem data_released_before_backends {τ : Type} (env : Backends τ) :
    (Buffer.data, [Backend.HNSW, Backend.Bruteforce]) ∈ releases [] (mainEvents env) := by
  rw [releases_main]
  exact List.mem_singleton.mpr rfl

/-- At `return 0` the handle `brt_search` is the one backend still alive. -/
theorem alive_at_exit {τ : Type} (env : Backends τ) :
    aliveAfter [] (mainEvents env) = [Backend.Bruteforce] := by
  have h : ∀ loop rest : List (MainEvent τ),
      aliveAfter []
        ([ MainEvent.newBackend Backend.HNSW, MainEvent.newBackend Backend.Bruteforce,
           MainEvent.newBuffer Buffer.data, MainEvent.newBuffer Buffer.data_query ]
          ++ loop ++ rest) =
      aliveAfter [Backend.HNSW, Backend.Bruteforce] (loop ++ rest) := fun _ _ => rfl
  unfold mainEvents benchLoop
  rw [h, aliveAfter_flatMap]
  rfl

/-! ## Theorems about the sequential path of ParallelFor -/

theorem seqLoop_returns {ε : Type} (fn : WorkFn ε) (end_ : Nat) (he : end_ < SIZE) :
    ∀ (n id fuel : Nat), end_ - id = n → n < fuel →
      (∀ i, id ≤ i → i < end_ → fn i 0 = none) →
      seqLoop fn end_ fuel id = some ⟨(List.range' id n).map (fun i => (i, 0)), none⟩ := by
  intro n
  induction n with
  | zero =>
    intro id fuel hn hf _
    obtain ⟨f, rfl⟩ : ∃ f, fuel = f + 1 := ⟨fuel - 1, by omega⟩
    have hlt : ¬ id < end_ := by omega
    simp [seqLoop, hlt]
  | succ n ih =>
    intro id fuel hn hf hfn
    obtain ⟨f, rfl⟩ : ∃ f, fuel = f + 1 := ⟨fuel - 1, by omega⟩
    have hlt : id < end_ := by omega
    have hmod : (id + 1) % SIZE = id + 1 := Nat.mod_eq_of_lt (by omega)
    have hrec := ih (id + 1) f (by omega) (by omega)
      (fun i h1 h2 => hfn i (by omega) h2)
    simp [seqLoop, hlt, hfn id (Nat.le_refl id) hlt, hmod, hrec, List.range'_succ]

theorem seqLoop_raises {ε : Type} (fn : WorkFn ε) (end_ j : Nat) (e : ε) (he : end_ < SIZE)
    (hj : j < end_) (hraise : fn j 0 = some e) :
    ∀ (n id fuel : Nat), id + n = j → n < fuel →
      (∀ i, id ≤ i → i < j → fn i 0 = none) →
      seqLoop fn end_ fuel id = some ⟨(List.range' id (n + 1)).map (fun i => (i, 0)), some e⟩ := by
  intro n
  induction n with
  | zero =>
    intro id fuel hn hf _
    obtain ⟨f, rfl⟩ : ∃ f, fuel = f + 1 := ⟨fuel - 1, by omega⟩
    have hid : id = j := by omega
    subst hid
    simp [seqLoop, hj, hraise]
  | succ n ih =>
    intro id fuel hn hf hfn
    obtain ⟨f, rfl⟩ : ∃ f, fuel = f + 1 := ⟨fuel - 1, by omega⟩
    have hlt : id < end_ := by omega
    have hmod : (id + 1) % SIZE = id + 1 := Nat.mod_eq_of_lt (by omega)
    have hrec := ih (id + 1) f (by omega) (by omega)
      (fun i h1 h2 => hfn i (by omega) h2)
    have hnone : fn id 0 = none := hfn id (Nat.le_refl id) (by omega)
    simp [seqLoop, hlt, hnone, hmod, hrec, List.range'_succ]

/-- C1: `ParallelFor(start, end, 1, fn)` calls `fn` in the calling thread with workerId 0 on
`start, start + 1, ...` in increasing order, each once.  When no call raises, the calls
are exactly `(start, 0), ..., (end - 1, 0)` (none when `start >= end`) and nothing is
raised; when `j` is the first raising index, the calls are `(start, 0), ..., (j, 0)` and
the error of `j` reaches the caller.  The loop ends within `end - start + 1` tests. -/
theorem ParallelFor_single_thread {ε : Type} (hardware_concurrency start end_ : Nat)
    (fn : WorkFn ε) (fuel : Nat) (sched : List Nat)
    (he : end_ < SIZE) (hf : end_ - start < fuel) :
    ((∀ i, start ≤ i → i < end_ → fn i 0 = none) →
      ParallelFor hardware_concurrency start end_ 1 fn fuel sched =
        some ⟨(List.range' start (end_ - start)).map (fun i => (i, 0)), none⟩) ∧
    (∀ j e, start ≤ j → j < end_ → fn j 0 = some e →
      (∀ i, start ≤ i → i < j → fn i 0 = none) →
      ParallelFor hardware_concurrency start end_ 1 fn fuel sched =
        some ⟨(List.range' start (j - start + 1)).map (fun i => (i, 0)), some e⟩) := by
  constructor
  · intro hfn
    simp only [ParallelFor, Nat.le_zero_eq, Nat.succ_ne_zero, if_false, if_true]
    exact seqLoop_returns fn end_ he (end_ - start) start fuel rfl hf hfn
  · intro j e hsj hje hraise hfn
    simp only [ParallelFor, Nat.le_zero_eq, Nat.succ_ne_zero, if_false, if_true]
    exact seqLoop_raises fn end_ j e he hje hraise (j - start) start fuel (by omega) (by omega) hfn

/-- C1 at `ParallelFor(0, 3, 1, fn)`, for an `fn` that never raises and for an `fn` that
raises 7 at index 1. -/
theorem ParallelFor_single_thread_witness :
    ParallelFor (ε := Nat) 8 0 3 1 (fun _ _ => none) 4 [] =
      some ⟨[(0, 0), (1, 0), (2, 0)], none⟩ ∧
    ParallelFor 8 0 3 1 (fun i _ => if i = 1 then some 7 else none) 4 [] =
      some ⟨[(0, 0), (1, 0)], some 7⟩ :=
  ⟨(ParallelFor_single_thread 8 0 3 (fun _ _ => none) 4 [] (by decide) (by decide)).1
      (fun _ _ _ => rfl),
    (ParallelFor_single_thread 8 0 3 (fun i _ => if i = 1 then some 7 else none) 4 []
      (by decide) (by decide)).2 1 7 (by decide) (by decide) rfl
      (fun i _ h => by
        have hi : i = 0 := by omega
        subst hi
        rfl)⟩

/-! ## Theorems about the worker pool of ParallelFor -/

theorem step_cases {ε : Type} {fn : WorkFn ε} {end_ : Nat} {s s' : State ε} {w : Nat}
    (h : step fn end_ s w = some s') :
    (s.threads[w]? = some Pc.fetch ∧
      s' = { s with
        current := (s.current + 1) % SIZE
        threads := s.threads.set w (if s.current ≥ end_ then Pc.done else Pc.call s.current)
        log := s.log ++ [Event.fetchAdd w s.current] }) ∨
    (∃ id, s.threads[w]? = some (Pc.call id) ∧ fn id w = none ∧
      s' = { s with
        threads := s.threads.set w Pc.fetch
        log := s.log ++ [Event.call w id] }) ∨
    (∃ id e, s.threads[w]? = some (Pc.call id) ∧ fn id w = some e ∧
      s' = { s with
        threads := s.threads.set w (Pc.caught e)
        log := s.log ++ [Event.call w id] }) ∨
    (∃ e, s.threads[w]? = some (Pc.caught e) ∧ s.lastExceptMutex = false ∧
      s' = { s with
        lastExceptMutex := true
        lastException := some e
        threads := s.threads.set w Pc.locked
        log := s.log ++ [Event.capture w e] }) ∨
    (s.threads[w]? = some Pc.locked ∧
      s' = { s with
        current := end_
        lastExceptMutex := false
        threads := s.threads.set w Pc.done
        log := s.log ++ [Event.store w] }) := by
  unfold step at h
  split at h
  · exact absurd h (by simp)
  · rename_i hw
    simp only [Option.some.injEq] at h
    exact Or.inl ⟨hw, h.symm⟩
  · rename_i id hw
    split at h
    · rename_i hfn
      simp only [Option.some.injEq] at h
      exact Or.inr (Or.inl ⟨id, hw, hfn, h.symm⟩)
    · rename_i e hfn
      simp only [Option.some.injEq] at h
      exact Or.inr (Or.inr (Or.inl ⟨id, e, hw, hfn, h.symm⟩))
  · rename_i e hw
    split at h
    · exact absurd h (by simp)
    · rename_i hm
      simp only [Option.some.injEq] at h
      exact Or.inr (Or.inr (Or.inr (Or.inl ⟨e, hw, by simpa using hm, h.symm⟩)))
  · rename_i hw
    simp only [Option.some.injEq] at h
    exact Or.inr (Or.inr (Or.inr (Or.inr ⟨hw, h.symm⟩)))
  · exact absurd h (by simp)

theorem run_append {ε : Type} (fn : WorkFn ε) (end_ : Nat) :
    ∀ (a b : List Nat) (s : State ε),
      run fn end_ s (a ++ b) = (run fn end_ s a).bind (fun s' => run fn end_ s' b) := by
  intro a
  induction a with
  | nil => intro b s; rfl
  | cons w a ih =>
    intro b s
    simp only [List.cons_append, run]
    cases step fn end_ s w with
    | none => rfl
    | some s' => exact ih b s'

theorem run_invariant {ε : Type} (fn : WorkFn ε) (end_ : Nat) (P : State ε → Prop)
    (hstep : ∀ s w s', P s → step fn end_ s w = some s' → P s') :
    ∀ (sched : List Nat) (s s' : State ε), P s → run fn end_ s sched = some s' → P s' := by
  intro sched
  induction sched with
  | nil =>
    intro s s' hP h
    simp only [run, Option.some.injEq] at h
    exact h ▸ hP
  | cons w sched ih =>
    intro s s' hP h
    simp only [run] at h
    cases hs : step fn end_ s w with
    | none => rw [hs] at h; exact absurd h (by simp)
    | some s1 =>
      rw [hs] at h
      exact ih s1 s' (hstep s w s1 hP hs) h

theorem ParallelFor_pool {ε : Type} {hardware_concurrency start end_ numThreads : Nat}
    {fn : WorkFn ε} {fuel : Nat} {sched : List Nat} {out : Outcome ε} (hn : 1 < numThreads)
    (h : ParallelFor hardware_concurrency start end_ numThreads fn fuel sched = some out) :
    ∃ s, run fn end_ (init start numThreads) sched = some s ∧ joined s = true ∧
      out = ⟨calls s, s.lastException⟩ := by
  unfold ParallelFor at h
  have h0 : ¬ numThreads ≤ 0 := by omega
  have h1 : ¬ numThreads = 1 := by omega
  simp only [h0, h1, if_false] at h
  cases hr : run fn end_ (init start numThreads) sched with
  | none => rw [hr] at h; exact absurd h (by simp)
  | some s =>
    rw [hr] at h
    by_cases hj : joined s = true
    · simp only [hj, if_true, Option.some.injEq] at h
      exact ⟨s, rfl, hj, h.symm⟩
    · simp only [hj, if_false] at h
      exact absurd h (by simp)

theorem slot_holds_last_capture {ε : Type} (fn : WorkFn ε) (end_ : Nat) (s : State ε)
    (w : Nat) (s' : State ε) (hP : s.lastException = (captures s).getLast?)
    (h : step fn end_ s w = some s') : s'.lastException = (captures s').getLast? := by
  rcases step_cases h with ⟨_, rfl⟩ | ⟨id, _, _, rfl⟩ | ⟨id, e, _, _, rfl⟩ | ⟨e, _, _, rfl⟩ |
    ⟨_, rfl⟩
  all_goals simp_all [captures, List.filterMap_append]

/-- C3, as stated, fails: with two workers whose calls both raise, the error of index 0 is
captured first and the error of index 1 second, and the caller receives the error of
index 1. -/
theorem first_captured_error_is_overwritten :
    (run alwaysRaises 2 (init 0 2) [0, 1, 0, 1, 0, 0, 1, 1]).map captures = some [0, 1] ∧
    ParallelFor 0 0 2 2 alwaysRaises 0 [0, 1, 0, 1, 0, 0, 1, 1] =
      some ⟨[(0, 0), (1, 1)], some 1⟩ := by
  decide

/-- C4 fails on the code: `ParallelFor(0, 2 ^ 64 - 1, 3, fn)` with `fn` raising only for index
0 has a complete execution in which index 0 is executed twice (by worker 0 and, after the
cursor has wrapped to 0, by worker 2). -/
theorem index_executed_twice_after_wrap :
    ParallelFor 0 0 (2 ^ 64 - 1) 3 (raisesAt 0) 0 [0, 0, 0, 0, 1, 2, 2, 2, 2] =
      some ⟨[(0, 0), (0, 2)], some 0⟩ := by
  decide

/-- C5 fails on the code: with `end = 2 ^ 64 - 1`, three workers and `fn` raising for the
index `2 ^ 64 - 2`, worker 0 stores `end` into the cursor, the `fetch_add` of worker 1
returns `2 ^ 64 - 1` and wraps the cursor to 0, and the later `fetch_add` of worker 2 returns
0, which is below `end`; worker 2 then starts `fn` on index 0. -/
theorem index_claimed_after_store :
    run (raisesAt (2 ^ 64 - 2)) (2 ^ 64 - 1) (init (2 ^ 64 - 2) 3) [0, 0, 0, 0, 1, 2, 2] =
      some ⟨1, some (2 ^ 64 - 2), false, [Pc.done, Pc.done, Pc.fetch],
        [ Event.fetchAdd 0 (2 ^ 64 - 2), Event.call 0 (2 ^ 64 - 2),
          Event.capture 0 (2 ^ 64 - 2), Event.store 0,
          Event.fetchAdd 1 (2 ^ 64 - 1), Event.fetchAdd 2 0, Event.call 2 0 ]⟩ := by
  decide

/-- C6 fails on the code: when `hardware_concurrency()` reports 0, `ParallelFor` with
`numThreads = 0` starts no worker, so its only execution is the empty one and `fn` is never
called, for instance in `ParallelFor(0, 1, 0, fn)`, where index 0 is left out. -/
theorem zero_hardware_concurrency_calls_nothing :
    (∀ (start end_ : Nat) (fn : WorkFn Unit) (fuel : Nat) (sched : List Nat),
      ParallelFor 0 start end_ 0 fn fuel sched =
        if sched = [] then some ⟨[], none⟩ else none) ∧
    ParallelFor 0 0 1 0 neverRaises 0 [] = some ⟨[], none⟩ := by
  refine ⟨?_, rfl⟩
  intro start end_ fn fuel sched
  cases sched with
  | nil => rfl
  | cons w sched => rfl

theorem set_same {α : Type} (l : List α) (w : Nat) (x : α) (h : l[w]? = some x) :
    l.set w x = l := by
  apply List.ext_getElem?
  intro n
  rw [List.getElem?_set]
  split
  · rename_i hwn
    subst hwn
    have hlt : w < l.length := by
      rcases Nat.lt_or_ge w l.length with h1 | h1
      · exact h1
      · rw [List.getElem?_eq_none h1] at h; exact absurd h (by simp)
    simp [hlt, h]
  · rfl

theorem lt_length_of_getElem? {α : Type} {l : List α} {w : Nat} {x : α} (h : l[w]? = some x) :
    w < l.length := by
  rcases Nat.lt_or_ge w l.length with h1 | h1
  · exact h1
  · rw [List.getElem?_eq_none h1] at h; exact absurd h (by simp)

theorem run_solo {ε : Type} (fn : WorkFn ε) (end_ w : Nat) (he : end_ < SIZE)
    (hfn : ∀ i, fn i w = none) :
    ∀ (k : Nat) (s : State ε), s.threads[w]? = some Pc.fetch → s.current + k ≤ end_ →
      run fn end_ s (soloSched w k) =
        some { s with
          current := s.current + k
          log := s.log ++
            (List.range' s.current k).flatMap (fun i => [Event.fetchAdd w i, Event.call w i]) } := by
  intro k
  induction k with
  | zero =>
    intro s _ _
    simp [soloSched, run]
  | succ k ih =>
    intro s hw hk
    have hlen := lt_length_of_getElem? hw
    have hlt : ¬ s.current ≥ end_ := by omega
    have hmod : (s.current + 1) % SIZE = s.current + 1 := Nat.mod_eq_of_lt (by omega)
    have h1 : step fn end_ s w = some { s with
        current := s.current + 1
        threads := s.threads.set w (Pc.call s.current)
        log := s.log ++ [Event.fetchAdd w s.current] } := by
      simp [step, hw, hlt, hmod]
    have h2 : step fn end_ { s with
        current := s.current + 1
        threads := s.threads.set w (Pc.call s.current)
        log := s.log ++ [Event.fetchAdd w s.current] } w = some { s with
        current := s.current + 1
        log := s.log ++ [Event.fetchAdd w s.current, Event.call w s.current] } := by
      simp [step, hlen, hfn, List.set_set, set_same _ _ _ hw]
    simp only [soloSched, run, h1, h2]
    refine (ih ⟨s.current + 1, s.lastException, s.lastExceptMutex, s.threads,
      s.log ++ [Event.fetchAdd w s.current, Event.call w s.current]⟩ hw
      (by show s.current + 1 + k ≤ end_; omega)).trans ?_
    simp [List.range'_succ, Nat.add_assoc, Nat.add_comm 1 k]

theorem wrap_run (K : Nat) (hK : K + 1 = SIZE) :
    run neverRaises K (init K 2) (0 :: (soloSched 1 K ++ [1])) =
      some ⟨0, none, false, [Pc.done, Pc.done],
        [Event.fetchAdd 0 K] ++
          (List.range' 0 K).flatMap (fun i => [Event.fetchAdd 1 i, Event.call 1 i]) ++
          [Event.fetchAdd 1 K]⟩ := by
  have hmod : (K + 1) % SIZE = 0 := by rw [hK]; exact Nat.mod_self SIZE
  have h1 : step neverRaises K (init K 2) 0 =
      some ⟨0, none, false, [Pc.done, Pc.fetch], [Event.fetchAdd 0 K]⟩ := by
    simp [step, init, hmod, List.replicate]
  have h2 := run_solo neverRaises K 1 (by omega) (fun _ => rfl) K
    ⟨0, none, false, [Pc.done, Pc.fetch], [Event.fetchAdd 0 K]⟩ rfl
    (by show 0 + K ≤ K; omega)
  simp only [run, h1]
  rw [run_append, h2]
  simp [run, step, hmod]


theorem ParallelFor_two {ε : Type} (hardware_concurrency start end_ : Nat) (fn : WorkFn ε)
    (fuel : Nat) (sched : List Nat) (s : State ε)
    (h : run fn end_ (init start 2) sched = some s) (hj : joined s = true) :
    ParallelFor hardware_concurrency start end_ 2 fn fuel sched =
      some ⟨calls s, s.lastException⟩ := by
  unfold ParallelFor
  simp only [Nat.le_zero_eq, OfNat.ofNat_ne_zero, OfNat.ofNat_ne_one, if_false, h, hj, if_true]

theorem calls_wrap_log (K : Nat) :
    calls (⟨0, none, false, [Pc.done, Pc.done],
        [Event.fetchAdd 0 K] ++
          (List.range' 0 K).flatMap (fun i => [Event.fetchAdd 1 i, Event.call 1 i]) ++
          [Event.fetchAdd 1 K]⟩ : State Unit) =
      (List.range' 0 K).map (fun i => (i, 1)) := by
  simp only [calls, List.filterMap_append]
  generalize List.range' 0 K = l
  induction l with
  | nil => rfl
  | cons i l ih =>
    simp only [List.flatMap_cons, List.filterMap_append] at ih ⊢
    simpa using ih

/-- C2 fails on the code: `ParallelFor(2 ^ 64 - 1, 2 ^ 64 - 1, 2, fn)` with `fn` never raising
has a complete execution that calls `fn` on every index `0, ..., 2 ^ 64 - 2`, although the
range is empty: the `fetch_add` of worker 0 returns `2 ^ 64 - 1` and wraps the cursor to 0,
and worker 1 claims the indices from 0 on. -/
theorem wrapped_cursor_claims_outside_range :
    ParallelFor 0 (2 ^ 64 - 1) (2 ^ 64 - 1) 2 neverRaises 0 wrapSched =
      some ⟨(List.range' 0 (2 ^ 64 - 1)).map (fun i => (i, 1)), none⟩ := by
  have h := wrap_run (2 ^ 64 - 1) (by decide)
  rw [ParallelFor_two 0 (2 ^ 64 - 1) (2 ^ 64 - 1) neverRaises 0 wrapSched _ h rfl,
    calls_wrap_log]

/-! ## The worker pool when the cursor cannot wrap, termination -/

theorem set_decomp {α : Type} {l : List α} {w : Nat} {a : α} (h : l[w]? = some a) :
    ∃ l1 l2, l = l1 ++ a :: l2 ∧ ∀ b, l.set w b = l1 ++ b :: l2 := by
  induction l generalizing w with
  | nil => simp at h
  | cons x l ih =>
    cases w with
    | zero =>
      simp only [List.getElem?_cons_zero, Option.some.injEq] at h
      exact ⟨[], l, by simp [h], fun b => by simp⟩
    | succ w =>
      simp only [List.getElem?_cons_succ] at h
      obtain ⟨l1, l2, h1, h2⟩ := ih h
      exact ⟨x :: l1, l2, by simp [h1], fun b => by simp [h2]⟩

theorem pending_set {ε : Type} {ts : List (Pc ε)} {w : Nat} {a : Pc ε} (h : ts[w]? = some a)
    (b : Pc ε) :
    List.Perm (pcIds a ++ (ts.set w b).flatMap pcIds) (pcIds b ++ ts.flatMap pcIds) := by
  obtain ⟨l1, l2, h1, h2⟩ := set_decomp h
  rw [h2 b, h1]
  simp only [List.flatMap_append, List.flatMap_cons]
  have e1 : List.Perm (pcIds a ++ (l1.flatMap pcIds ++ (pcIds b ++ l2.flatMap pcIds)))
      (pcIds a ++ (pcIds b ++ (l1.flatMap pcIds ++ l2.flatMap pcIds))) := by
    apply List.Perm.append_left
    rw [← List.append_assoc, ← List.append_assoc]
    exact List.Perm.append_right _ List.perm_append_comm
  have e2 : List.Perm (pcIds b ++ (l1.flatMap pcIds ++ (pcIds a ++ l2.flatMap pcIds)))
      (pcIds b ++ (pcIds a ++ (l1.flatMap pcIds ++ l2.flatMap pcIds))) := by
    apply List.Perm.append_left
    rw [← List.append_assoc, ← List.append_assoc]
    exact List.Perm.append_right _ List.perm_append_comm
  refine e1.trans (List.Perm.trans ?_ e2.symm)
  rw [← List.append_assoc, ← List.append_assoc (pcIds b)]
  exact List.Perm.append_right _ List.perm_append_comm

theorem live_set {ε : Type} {ts : List (Pc ε)} {w : Nat} {a : Pc ε} (h : ts[w]? = some a)
    (b : Pc ε) :
    ((ts.set w b).map pcLive).sum + pcLive a = (ts.map pcLive).sum + pcLive b := by
  obtain ⟨l1, l2, h1, h2⟩ := set_decomp h
  rw [h2 b, h1]
  simp only [List.map_append, List.map_cons, List.sum_append, List.sum_cons]
  omega

theorem live_le_length {ε : Type} (ts : List (Pc ε)) : (ts.map pcLive).sum ≤ ts.length := by
  induction ts with
  | nil => simp
  | cons p ts ih =>
    simp only [List.map_cons, List.sum_cons, List.length_cons]
    have : pcLive p ≤ 1 := by cases p <;> simp [pcLive]
    omega

theorem live_pos_of_mem {ε : Type} {ts : List (Pc ε)} {w : Nat} {a : Pc ε}
    (h : ts[w]? = some a) : pcLive a ≤ (ts.map pcLive).sum := by
  obtain ⟨l1, l2, h1, _⟩ := set_decomp h
  rw [h1]
  simp only [List.map_append, List.map_cons, List.sum_append, List.sum_cons]
  omega

theorem PoolInv_init {ε : Type} (start end_ t : Nat) :
    PoolInv start end_ t (init start t : State ε) := by
  have hlive : live (init start t : State ε) = t := by
    simp only [live, init]
    induction t with
    | zero => rfl
    | succ t ih => simp only [List.replicate_succ, List.map_cons, List.sum_cons, ih, pcLive]; omega
  refine ⟨by simp [init], by simp [claimedIds, init], by simp [claimedIds, init],
    by simp [claimedIds, init, calls, pending, pcIds], ?_⟩
  by_cases h : start < end_
  · left
    refine ⟨by simp [hasStore, init], h, by simp [claimedIds, init], ?_⟩
    intro p hp
    simp only [init, List.mem_replicate] at hp
    rw [hp.2]
    simp
  · right
    refine ⟨Or.inl ⟨by simp only [init]; omega, ?_⟩, fun _ => by simp [claimedIds, init]; omega⟩
    rw [hlive]
    simp only [init]
    omega

theorem PoolInv_fetch {ε : Type} {start end_ t : Nat} (hM : max start end_ + t ≤ SIZE)
    {s s' : State ε} {w : Nat} (hI : PoolInv start end_ t s)
    (hw : s.threads[w]? = some Pc.fetch)
    (hs' : s' = { s with
        current := (s.current + 1) % SIZE
        threads := s.threads.set w (if s.current ≥ end_ then Pc.done else Pc.call s.current)
        log := s.log ++ [Event.fetchAdd w s.current] }) :
    PoolInv start end_ t s' := by
  have hwlt := lt_length_of_getElem? hw
  have hlen := hI.len
  have hcalls : calls s' = calls s := by rw [hs']; simp [calls]
  have hstore : hasStore s' = hasStore s := by rw [hs']; simp [hasStore]
  have hlen' : s'.threads.length = t := by rw [hs']; simp [hlen]
  have hlive1 : 1 ≤ live s := live_pos_of_mem hw
  have hlivet : live s ≤ t := hlen ▸ live_le_length s.threads
  by_cases hc : s.current < end_
  · -- the cursor is below `end`: the worker claims the index
    have hge : ¬ s.current ≥ end_ := by omega
    have hcl : claimedIds end_ s' = claimedIds end_ s ++ [s.current] := by
      rw [hs']; simp [claimedIds, hc]
    have hthreads : s'.threads = s.threads.set w (Pc.call s.current) := by
      rw [hs']; simp [hge]
    have hpend : List.Perm (pending s') (s.current :: pending s) := by
      have := pending_set hw (Pc.call s.current)
      simpa [pending, hthreads, pcIds] using this
    have hlive : live s' = live s := by
      have := live_set hw (Pc.call s.current)
      simp only [pcLive] at this
      simp only [live, hthreads]
      omega
    have hcur : s'.current = s.current + 1 := by
      rw [hs']
      exact Nat.mod_eq_of_lt (by omega)
    rcases hI.phase with ⟨hA1, _, hA3, hA4⟩ | ⟨hB, _⟩
    · refine ⟨hlen', ?_, ?_, ?_, ?_⟩
      · rw [hcl, List.length_append, List.length_singleton, List.range'_concat, ← hI.consecutive,
          Nat.one_mul, ← hA3]
      · rw [hcl, List.length_append, List.length_singleton]; omega
      · rw [hcl, hcalls]
        refine (List.Perm.append_left _ hpend).trans ?_
        refine List.perm_middle.trans ?_
        exact (List.Perm.cons _ hI.perm).trans (List.perm_append_singleton _ _).symm
      · by_cases hnext : s.current + 1 < end_
        · left
          refine ⟨hstore ▸ hA1, by omega, ?_, ?_⟩
          · rw [hcl, List.length_append, List.length_singleton]; omega
          · intro p hp
            rw [hthreads] at hp
            rcases List.mem_or_eq_of_mem_set hp with h1 | h1
            · exact hA4 p h1
            · rw [h1]; simp
        · right
          refine ⟨Or.inl ⟨by omega, by omega⟩, fun _ => ?_⟩
          rw [hcl, List.length_append, List.length_singleton]; omega
    · rcases hB with ⟨h1, _⟩ | h1 <;> omega
  · -- the cursor is at least `end`: the worker leaves its loop
    have hge : s.current ≥ end_ := by omega
    have hcl : claimedIds end_ s' = claimedIds end_ s := by
      rw [hs']; simp [claimedIds, hc]
    have hthreads : s'.threads = s.threads.set w Pc.done := by
      rw [hs']; simp [hge]
    have hpend : List.Perm (pending s') (pending s) := by
      have := pending_set hw Pc.done
      simpa [pending, hthreads, pcIds] using this
    have hlive : live s' + 1 = live s := by
      have := live_set hw Pc.done
      simp only [pcLive] at this
      simp only [live, hthreads]
      omega
    have hcur : s'.current = (s.current + 1) % SIZE := by rw [hs']
    rcases hI.phase with ⟨_, hA2, _, _⟩ | ⟨hB, hB2⟩
    · omega
    · refine ⟨hlen', by rw [hcl]; exact hI.consecutive, by rw [hcl]; exact hI.bound, ?_, ?_⟩
      · rw [hcl, hcalls]
        exact (List.Perm.append_left _ hpend).trans hI.perm
      · right
        refine ⟨?_, fun h => by rw [hcl]; exact hB2 (hstore ▸ h)⟩
        by_cases h0 : live s' = 0
        · exact Or.inr h0
        · left
          rcases hB with ⟨h1, h2⟩ | h1
          · have hmod : (s.current + 1) % SIZE = s.current + 1 := Nat.mod_eq_of_lt (by omega)
            rw [hcur, hmod]
            omega
          · omega

theorem PoolInv_call {ε : Type} {start end_ t : Nat} {s s' : State ε} {w id : Nat}
    (hI : PoolInv start end_ t s) (hw : s.threads[w]? = some (Pc.call id)) (b : Pc ε)
    (hb : b ≠ Pc.done) (hb1 : pcLive b ≤ 1) (hb2 : pcIds b = [])
    (hs' : s' = { s with
        threads := s.threads.set w b
        log := s.log ++ [Event.call w id] }) :
    PoolInv start end_ t s' := by
  have hlen := hI.len
  have hcalls : calls s' = calls s ++ [(id, w)] := by rw [hs']; simp [calls]
  have hstore : hasStore s' = hasStore s := by rw [hs']; simp [hasStore]
  have hlen' : s'.threads.length = t := by rw [hs']; simp [hlen]
  have hcl : claimedIds end_ s' = claimedIds end_ s := by rw [hs']; simp [claimedIds]
  have hthreads : s'.threads = s.threads.set w b := by rw [hs']
  have hcur : s'.current = s.current := by rw [hs']
  have hpend : List.Perm (id :: pending s') (pending s) := by
    have := pending_set hw b
    rw [hb2] at this
    simpa only [pending, hthreads, pcIds, List.nil_append, List.singleton_append] using this
  have hlive : live s' ≤ live s := by
    have := live_set hw b
    have h1 : pcLive (Pc.call id : Pc ε) = 1 := rfl
    rw [h1] at this
    simp only [live, hthreads]
    omega
  refine ⟨hlen', by rw [hcl]; exact hI.consecutive, by rw [hcl]; exact hI.bound, ?_, ?_⟩
  · rw [hcl, hcalls, List.map_append, List.map_singleton, List.append_assoc]
    exact (List.Perm.append_left _ hpend).trans hI.perm
  · rw [hcl, hstore, hcur]
    rcases hI.phase with ⟨hA1, hA2, hA3, hA4⟩ | ⟨hB, hB2⟩
    · left
      refine ⟨hA1, hA2, hA3, ?_⟩
      intro p hp
      rw [hthreads] at hp
      rcases List.mem_or_eq_of_mem_set hp with h1 | h1
      · exact hA4 p h1
      · rw [h1]; exact hb
    · right
      refine ⟨?_, hB2⟩
      rcases hB with ⟨h1, h2⟩ | h1
      · exact Or.inl ⟨h1, by omega⟩
      · exact Or.inr (by omega)

theorem PoolInv_capture {ε : Type} {start end_ t : Nat} {s s' : State ε} {w : Nat} {e : ε}
    (hI : PoolInv start end_ t s) (hw : s.threads[w]? = some (Pc.caught e))
    (hs' : s' = { s with
        lastExceptMutex := true
        lastException := some e
        threads := s.threads.set w Pc.locked
        log := s.log ++ [Event.capture w e] }) :
    PoolInv start end_ t s' := by
  have hlen := hI.len
  have hcalls : calls s' = calls s := by rw [hs']; simp [calls]
  have hstore : hasStore s' = hasStore s := by rw [hs']; simp [hasStore]
  have hlen' : s'.threads.length = t := by rw [hs']; simp [hlen]
  have hcl : claimedIds end_ s' = claimedIds end_ s := by rw [hs']; simp [claimedIds]
  have hthreads : s'.threads = s.threads.set w Pc.locked := by rw [hs']
  have hcur : s'.current = s.current := by rw [hs']
  have hpend : List.Perm (pending s') (pending s) := by
    have := pending_set hw Pc.locked
    simpa [pending, hthreads, pcIds] using this
  have hlive : live s' = live s := by
    have := live_set hw Pc.locked
    simp only [pcLive] at this
    simp only [live, hthreads]
    omega
  refine ⟨hlen', by rw [hcl]; exact hI.consecutive, by rw [hcl]; exact hI.bound, ?_, ?_⟩
  · rw [hcl, hcalls]
    exact (List.Perm.append_left _ hpend).trans hI.perm
  · rw [hcl, hstore, hcur, hlive]
    rcases hI.phase with ⟨hA1, hA2, hA3, hA4⟩ | hB
    · left
      refine ⟨hA1, hA2, hA3, ?_⟩
      intro p hp
      rw [hthreads] at hp
      rcases List.mem_or_eq_of_mem_set hp with h1 | h1
      · exact hA4 p h1
      · rw [h1]; simp
    · exact Or.inr hB

theorem PoolInv_store {ε : Type} {start end_ t : Nat} {s s' : State ε} {w : Nat}
    (hI : PoolInv start end_ t s) (hw : s.threads[w]? = some Pc.locked)
    (hs' : s' = { s with
        current := end_
        lastExceptMutex := false
        threads := s.threads.set w Pc.done
        log := s.log ++ [Event.store w] }) :
    PoolInv start end_ t s' := by
  have hlen := hI.len
  have hcalls : calls s' = calls s := by rw [hs']; simp [calls]
  have hstore : hasStore s' = true := by rw [hs']; simp [hasStore]
  have hlen' : s'.threads.length = t := by rw [hs']; simp [hlen]
  have hcl : claimedIds end_ s' = claimedIds end_ s := by rw [hs']; simp [claimedIds]
  have hthreads : s'.threads = s.threads.set w Pc.done := by rw [hs']
  have hcur : s'.current = end_ := by rw [hs']
  have hpend : List.Perm (pending s') (pending s) := by
    have := pending_set hw Pc.done
    simpa [pending, hthreads, pcIds] using this
  have hlive : live s' = live s := by
    have := live_set hw Pc.done
    simp only [pcLive] at this
    simp only [live, hthreads]
    omega
  have hlivet : live s ≤ t := hlen ▸ live_le_length s.threads
  refine ⟨hlen', by rw [hcl]; exact hI.consecutive, by rw [hcl]; exact hI.bound, ?_, ?_⟩
  · rw [hcl, hcalls]
    exact (List.Perm.append_left _ hpend).trans hI.perm
  · right
    refine ⟨Or.inl ⟨by omega, by omega⟩, fun h => ?_⟩
    rw [hstore] at h
    exact absurd h (by simp)

theorem PoolInv_step {ε : Type} {start end_ t : Nat} (hM : max start end_ + t ≤ SIZE)
    (fn : WorkFn ε) (s : State ε) (w : Nat) (s' : State ε) (hI : PoolInv start end_ t s)
    (h : step fn end_ s w = some s') : PoolInv start end_ t s' := by
  rcases step_cases h with ⟨hw, hs'⟩ | ⟨id, hw, _, hs'⟩ | ⟨id, e, hw, _, hs'⟩ | ⟨e, hw, _, hs'⟩ |
    ⟨hw, hs'⟩
  · exact PoolInv_fetch hM hI hw hs'
  · exact PoolInv_call hI hw Pc.fetch (by simp) (by simp [pcLive]) rfl hs'
  · exact PoolInv_call hI hw (Pc.caught e) (by simp) (by simp [pcLive]) rfl hs'
  · exact PoolInv_capture hI hw hs'
  · exact PoolInv_store hI hw hs'

theorem PoolInv_run {ε : Type} {start end_ t : Nat} (hM : max start end_ + t ≤ SIZE)
    (fn : WorkFn ε) (sched : List Nat) (s : State ε)
    (h : run fn end_ (init start t) sched = some s) : PoolInv start end_ t s :=
  run_invariant fn end_ (PoolInv start end_ t) (fun s w s' => PoolInv_step hM fn s w s')
    sched (init start t) s (PoolInv_init start end_ t) h

theorem mem_of_getElem? {α : Type} {l : List α} {w : Nat} {a : α} (h : l[w]? = some a) :
    a ∈ l := by
  obtain ⟨l1, l2, h1, _⟩ := set_decomp h
  rw [h1]
  simp

theorem all_done_of_joined {ε : Type} {s : State ε} (h : joined s = true) :
    ∀ p ∈ s.threads, p = Pc.done := by
  intro p hp
  simp only [joined, List.all_eq_true] at h
  have := h p hp
  cases p <;> simp_all

theorem pending_of_joined {ε : Type} {s : State ε} (h : joined s = true) : pending s = [] := by
  have hall := all_done_of_joined h
  simp only [pending]
  generalize s.threads = ts at hall
  induction ts with
  | nil => rfl
  | cons p ts ih =>
    have hp : p = Pc.done := hall p (List.mem_cons_self _ _)
    have := ih (fun q hq => hall q (List.mem_cons_of_mem _ hq))
    simp [List.flatMap_cons, hp, pcIds, this]

theorem calls_perm_of_joined {ε : Type} {start end_ t : Nat} {s : State ε}
    (hI : PoolInv start end_ t s) (hj : joined s = true) :
    List.Perm ((calls s).map Prod.fst) (List.range' start (claimedIds end_ s).length) := by
  have h := hI.perm
  rw [pending_of_joined hj, List.append_nil] at h
  rw [← hI.consecutive]
  exact h

/-- When the cursor cannot wrap (`max start end + numThreads ≤ 2 ^ 64`), every complete
execution of the pool, whatever `fn` does, calls `fn` at most once per index and only on
indices of `[start, end)`. -/
theorem pool_calls_distinct_and_in_range {ε : Type}
    (hardware_concurrency start end_ numThreads : Nat) (fn : WorkFn ε) (fuel : Nat)
    (sched : List Nat) (out : Outcome ε) (hn : 1 < numThreads)
    (hM : max start end_ + numThreads ≤ SIZE)
    (h : ParallelFor hardware_concurrency start end_ numThreads fn fuel sched = some out) :
    (out.calls.map Prod.fst).Nodup ∧ ∀ i ∈ out.calls.map Prod.fst, start ≤ i ∧ i < end_ := by
  obtain ⟨s, hr, hj, rfl⟩ := ParallelFor_pool hn h
  have hI := PoolInv_run hM fn sched s hr
  have hp := calls_perm_of_joined hI hj
  have hb := hI.bound
  refine ⟨hp.nodup_iff.mpr (List.nodup_range' _ _), ?_⟩
  intro i hi
  have := hp.mem_iff.mp hi
  rw [List.mem_range'_1] at this
  omega

theorem QuietInv_step {ε : Type} (fn : WorkFn ε) (hfn : ∀ i w, fn i w = none) (end_ : Nat)
    (s : State ε) (w : Nat) (s' : State ε) (hQ : QuietInv s)
    (h : step fn end_ s w = some s') : QuietInv s' := by
  rcases step_cases h with ⟨hw, hs'⟩ | ⟨id, hw, _, hs'⟩ | ⟨id, e, hw, hr, hs'⟩ | ⟨e, hw, _, hs'⟩ |
    ⟨hw, hs'⟩
  · refine ⟨?_, by rw [hs']; simpa [hasStore] using hQ.noStore, by rw [hs']; exact hQ.noError⟩
    intro p hp
    rw [hs'] at hp
    rcases List.mem_or_eq_of_mem_set hp with h1 | h1
    · exact hQ.pcs p h1
    · rw [h1]
      split
      · exact Or.inr (Or.inr rfl)
      · exact Or.inr (Or.inl ⟨_, rfl⟩)
  · refine ⟨?_, by rw [hs']; simpa [hasStore] using hQ.noStore, by rw [hs']; exact hQ.noError⟩
    intro p hp
    rw [hs'] at hp
    rcases List.mem_or_eq_of_mem_set hp with h1 | h1
    · exact hQ.pcs p h1
    · exact Or.inl h1
  · rw [hfn id w] at hr
    exact absurd hr (by simp)
  · have := hQ.pcs _ (mem_of_getElem? hw)
    simp at this
  · have := hQ.pcs _ (mem_of_getElem? hw)
    simp at this

theorem QuietInv_init {ε : Type} (start t : Nat) : QuietInv (init start t : State ε) := by
  refine ⟨?_, by simp [hasStore, init], rfl⟩
  intro p hp
  simp only [init, List.mem_replicate] at hp
  exact Or.inl hp.2

/-- When the cursor cannot wrap (`max start end + numThreads ≤ 2 ^ 64`) and `fn` never
raises, every complete execution of the pool calls `fn` exactly once for each index of
`[start, end)` and for no other index, and raises nothing. -/
theorem pool_exactly_once {ε : Type}
    (hardware_concurrency start end_ numThreads : Nat) (fn : WorkFn ε) (fuel : Nat)
    (sched : List Nat) (out : Outcome ε) (hn : 1 < numThreads)
    (hM : max start end_ + numThreads ≤ SIZE) (hfn : ∀ i w, fn i w = none)
    (h : ParallelFor hardware_concurrency start end_ numThreads fn fuel sched = some out) :
    List.Perm (out.calls.map Prod.fst) (List.range' start (end_ - start)) ∧
      out.raised = none := by
  obtain ⟨s, hr, hj, rfl⟩ := ParallelFor_pool hn h
  have hI := PoolInv_run hM fn sched s hr
  have hQ := run_invariant fn end_ QuietInv (QuietInv_step fn hfn end_) sched
    (init start numThreads) s (QuietInv_init start numThreads) hr
  have hp := calls_perm_of_joined hI hj
  refine ⟨?_, hQ.noError⟩
  rcases hI.phase with ⟨_, _, _, hA4⟩ | ⟨_, hB2⟩
  · -- a joined pool has a finished worker
    have hlen := hI.len
    have hne : s.threads ≠ [] := by
      intro h0
      rw [h0] at hlen
      simp at hlen
      omega
    obtain ⟨p, hp'⟩ := List.exists_mem_of_ne_nil _ hne
    exact absurd (all_done_of_joined hj p hp') (hA4 p hp')
  · rw [hB2 hQ.noStore] at hp
    exact hp

theorem get_of_set {α : Type} {l : List α} {w w' : Nat} {b x : α}
    (h : (l.set w b)[w']? = some x) : x = b ∨ l[w']? = some x := by
  rw [List.getElem?_set] at h
  split at h
  · split at h
    · simp only [Option.some.injEq] at h
      exact Or.inl h.symm
    · exact absurd h (by simp)
  · exact Or.inr h

theorem set_of_get {α : Type} {l : List α} {w w' : Nat} {a x : α} (b : α)
    (h : l[w']? = some x) (hw : l[w]? = some a) (hne : x ≠ a) :
    (l.set w b)[w']? = some x := by
  have hww : w ≠ w' := by
    intro h0
    subst h0
    rw [hw] at h
    simp only [Option.some.injEq] at h
    exact hne h.symm
  rw [List.getElem?_set_ne hww]
  exact h

theorem RaiseInv_init {ε : Type} (fn : WorkFn ε) (start t : Nat) :
    RaiseInv fn (init start t : State ε) := by
  refine ⟨rfl, by simp [captures, init], ?_, by simp [calls, init], ?_, by simp [hasStore, init]⟩
  · intro w e h
    have := mem_of_getElem? h
    simp [init, List.mem_replicate] at this
  · intro w h
    have := mem_of_getElem? h
    simp [init, List.mem_replicate] at this

theorem RaiseInv_step {ε : Type} (fn : WorkFn ε) (end_ : Nat) (s : State ε) (w : Nat)
    (s' : State ε) (hI : RaiseInv fn s) (h : step fn end_ s w = some s') : RaiseInv fn s' := by
  rcases step_cases h with ⟨hw, hs'⟩ | ⟨id0, hw, hf, hs'⟩ | ⟨id0, e0, hw, hf, hs'⟩ |
    ⟨e0, hw, _, hs'⟩ | ⟨hw, hs'⟩
  · -- fetch_add
    have hcalls : calls s' = calls s := by rw [hs']; simp [calls]
    have hcap : captures s' = captures s := by rw [hs']; simp [captures]
    have hst : hasStore s' = hasStore s := by rw [hs']; simp [hasStore]
    have hth : s'.threads =
        s.threads.set w (if s.current ≥ end_ then Pc.done else Pc.call s.current) := by rw [hs']
    have hex : s'.lastException = s.lastException := by rw [hs']
    have hold : ∀ (w' : Nat) (x : Pc ε), s'.threads[w']? = some x → x ≠ Pc.done → (∀ id, x ≠ Pc.call id) →
        s.threads[w']? = some x := by
      intro w' x hx h1 h2
      rw [hth] at hx
      rcases get_of_set hx with h3 | h3
      · split at h3
        · exact absurd h3 h1
        · exact absurd h3 (h2 _)
      · exact h3
    refine ⟨by rw [hex, hcap]; exact hI.slot, by rw [hcap, hcalls]; exact hI.captured, ?_, ?_, ?_,
      by rw [hst, hcap]; exact hI.stored⟩
    · intro w' e hx
      rw [hcalls]
      exact hI.caught w' e (hold w' _ hx (by simp) (by simp))
    · intro id w' hm hne
      rw [hcalls] at hm
      rw [hcap]
      rcases hI.raised id w' hm hne with ⟨e, he⟩ | h1
      · exact Or.inl ⟨e, by rw [hth]; exact set_of_get _ he hw (by simp)⟩
      · exact Or.inr h1
    · intro w' hx
      rw [hcap]
      exact hI.locked w' (hold w' _ hx (by simp) (by simp))
  · -- the call returns
    have hcalls : calls s' = calls s ++ [(id0, w)] := by rw [hs']; simp [calls]
    have hcap : captures s' = captures s := by rw [hs']; simp [captures]
    have hst : hasStore s' = hasStore s := by rw [hs']; simp [hasStore]
    have hth : s'.threads = s.threads.set w Pc.fetch := by rw [hs']
    have hex : s'.lastException = s.lastException := by rw [hs']
    have hold : ∀ (w' : Nat) (x : Pc ε), s'.threads[w']? = some x → x ≠ Pc.fetch → s.threads[w']? = some x := by
      intro w' x hx h1
      rw [hth] at hx
      rcases get_of_set hx with h3 | h3
      · exact absurd h3 h1
      · exact h3
    refine ⟨by rw [hex, hcap]; exact hI.slot, ?_, ?_, ?_, ?_, by rw [hst, hcap]; exact hI.stored⟩
    · intro e he
      rw [hcap] at he
      obtain ⟨id, w', h1, h2⟩ := hI.captured e he
      exact ⟨id, w', by rw [hcalls]; exact List.mem_append_left _ h1, h2⟩
    · intro w' e hx
      obtain ⟨id, h1, h2⟩ := hI.caught w' e (hold w' _ hx (by simp))
      exact ⟨id, by rw [hcalls]; exact List.mem_append_left _ h1, h2⟩
    · intro id w' hm hne
      rw [hcalls, List.mem_append, List.mem_singleton] at hm
      rw [hcap]
      rcases hm with hm | hm
      · rcases hI.raised id w' hm hne with ⟨e, he⟩ | h1
        · exact Or.inl ⟨e, by rw [hth]; exact set_of_get _ he hw (by simp)⟩
        · exact Or.inr h1
      · simp only [Prod.mk.injEq] at hm
        rw [hm.1, hm.2] at hne
        exact absurd hf hne
    · intro w' hx
      rw [hcap]
      exact hI.locked w' (hold w' _ hx (by simp))
  · -- the call raises
    have hcalls : calls s' = calls s ++ [(id0, w)] := by rw [hs']; simp [calls]
    have hcap : captures s' = captures s := by rw [hs']; simp [captures]
    have hst : hasStore s' = hasStore s := by rw [hs']; simp [hasStore]
    have hth : s'.threads = s.threads.set w (Pc.caught e0) := by rw [hs']
    have hex : s'.lastException = s.lastException := by rw [hs']
    have hwlt := lt_length_of_getElem? hw
    refine ⟨by rw [hex, hcap]; exact hI.slot, ?_, ?_, ?_, ?_, by rw [hst, hcap]; exact hI.stored⟩
    · intro e he
      rw [hcap] at he
      obtain ⟨id, w', h1, h2⟩ := hI.captured e he
      exact ⟨id, w', by rw [hcalls]; exact List.mem_append_left _ h1, h2⟩
    · intro w' e hx
      rw [hth] at hx
      rcases get_of_set hx with h3 | h3
      · simp only [Pc.caught.injEq] at h3
        by_cases hww : w = w'
        · subst hww
          exact ⟨id0, by rw [hcalls]; simp, by rw [h3]; exact hf⟩
        · rw [List.getElem?_set_ne hww] at hx
          obtain ⟨id, h1, h2⟩ := hI.caught w' e hx
          exact ⟨id, by rw [hcalls]; exact List.mem_append_left _ h1, h2⟩
      · obtain ⟨id, h1, h2⟩ := hI.caught w' e h3
        exact ⟨id, by rw [hcalls]; exact List.mem_append_left _ h1, h2⟩
    · intro id w' hm hne
      rw [hcalls, List.mem_append, List.mem_singleton] at hm
      rw [hcap]
      rcases hm with hm | hm
      · rcases hI.raised id w' hm hne with ⟨e, he⟩ | h1
        · exact Or.inl ⟨e, by rw [hth]; exact set_of_get _ he hw (by simp)⟩
        · exact Or.inr h1
      · simp only [Prod.mk.injEq] at hm
        refine Or.inl ⟨e0, ?_⟩
        rw [hm.2, hth, List.getElem?_set_self hwlt]
    · intro w' hx
      rw [hcap]
      rw [hth] at hx
      rcases get_of_set hx with h3 | h3
      · exact absurd h3 (by simp)
      · exact hI.locked w' h3
  · -- the error is assigned to the slot
    have hcalls : calls s' = calls s := by rw [hs']; simp [calls]
    have hcap : captures s' = captures s ++ [e0] := by rw [hs']; simp [captures]
    have hth : s'.threads = s.threads.set w Pc.locked := by rw [hs']
    have hex : s'.lastException = some e0 := by rw [hs']
    have hne : captures s' ≠ [] := by rw [hcap]; simp
    refine ⟨by rw [hex, hcap]; simp, ?_, ?_, fun _ _ _ _ => Or.inr hne, fun _ _ => hne,
      fun _ => hne⟩
    · intro e he
      rw [hcap, List.mem_append, List.mem_singleton] at he
      rw [hcalls]
      rcases he with he | he
      · exact hI.captured e he
      · obtain ⟨id, h1, h2⟩ := hI.caught w e0 hw
        exact ⟨id, w, h1, by rw [he]; exact h2⟩
    · intro w' e hx
      rw [hcalls]
      rw [hth] at hx
      rcases get_of_set hx with h3 | h3
      · exact absurd h3 (by simp)
      · exact hI.caught w' e h3
  · -- the store of `end`
    have hcalls : calls s' = calls s := by rw [hs']; simp [calls]
    have hcap : captures s' = captures s := by rw [hs']; simp [captures]
    have hth : s'.threads = s.threads.set w Pc.done := by rw [hs']
    have hex : s'.lastException = s.lastException := by rw [hs']
    have hne : captures s' ≠ [] := by rw [hcap]; exact hI.locked w hw
    refine ⟨by rw [hex, hcap]; exact hI.slot, by rw [hcap, hcalls]; exact hI.captured, ?_,
      fun _ _ _ _ => Or.inr hne, fun _ _ => hne, fun _ => hne⟩
    intro w' e hx
    rw [hcalls]
    rw [hth] at hx
    rcases get_of_set hx with h3 | h3
    · exact absurd h3 (by simp)
    · exact hI.caught w' e h3

/-- When the cursor cannot wrap (`max start end + numThreads ≤ 2 ^ 64`) and `fn` raises for
the index `j` of the range and for no other index, every complete execution of the pool
calls `fn` at most once per index and re-raises the error of a call on `j`. -/
theorem pool_single_raise {ε : Type}
    (hardware_concurrency start end_ numThreads : Nat) (fn : WorkFn ε) (fuel : Nat)
    (sched : List Nat) (out : Outcome ε) (j : Nat) (hn : 1 < numThreads)
    (hM : max start end_ + numThreads ≤ SIZE) (hj1 : start ≤ j) (hj2 : j < end_)
    (hraise : ∀ w, fn j w ≠ none) (hother : ∀ i w, i ≠ j → fn i w = none)
    (h : ParallelFor hardware_concurrency start end_ numThreads fn fuel sched = some out) :
    (out.calls.map Prod.fst).Nodup ∧
      ∃ w e, (j, w) ∈ out.calls ∧ fn j w = some e ∧ out.raised = some e := by
  refine ⟨(pool_calls_distinct_and_in_range hardware_concurrency start end_ numThreads fn fuel
    sched out hn hM h).1, ?_⟩
  obtain ⟨s, hr, hj, rfl⟩ := ParallelFor_pool hn h
  have hI := PoolInv_run hM fn sched s hr
  have hR := run_invariant fn end_ (RaiseInv fn) (RaiseInv_step fn end_) sched
    (init start numThreads) s (RaiseInv_init fn start numThreads) hr
  have hp := calls_perm_of_joined hI hj
  have hcap : captures s ≠ [] := by
    by_cases hst : hasStore s = true
    · exact hR.stored hst
    · have hst' : hasStore s = false := by simpa using hst
      rcases hI.phase with ⟨_, _, _, hA4⟩ | ⟨_, hB2⟩
      · have hlen := hI.len
        have hne : s.threads ≠ [] := by
          intro h0
          rw [h0] at hlen
          simp at hlen
          omega
        obtain ⟨p, hp'⟩ := List.exists_mem_of_ne_nil _ hne
        exact absurd (all_done_of_joined hj p hp') (hA4 p hp')
      · rw [hB2 hst'] at hp
        have hjm : j ∈ (calls s).map Prod.fst :=
          hp.mem_iff.mpr (by rw [List.mem_range'_1]; omega)
        rw [List.mem_map] at hjm
        obtain ⟨⟨id, w⟩, hm, hid⟩ := hjm
        simp only at hid
        subst hid
        rcases hR.raised id w hm (hraise w) with ⟨e, he⟩ | h1
        · have := all_done_of_joined hj _ (mem_of_getElem? he)
          exact absurd this (by simp)
        · exact h1
  obtain ⟨e, he⟩ : ∃ e, (captures s).getLast? = some e := by
    cases hl : (captures s).getLast? with
    | none => exact absurd (List.getLast?_eq_none_iff.mp hl) hcap
    | some e => exact ⟨e, rfl⟩
  obtain ⟨id, w, hm, hf⟩ := hR.captured e (List.mem_of_getLast?_eq_some he)
  have hid : id = j := by
    by_contra hne
    rw [hother id w hne] at hf
    exact absurd hf (by simp)
  subst hid
  exact ⟨w, e, hm, hf, by rw [← he]; exact hR.slot⟩

/-- When the cursor cannot wrap (`max start end + numThreads ≤ 2 ^ 64`): in every state
reached after some worker has stored `end` into the cursor, a worker that executes
`fetch_add` gets a value that is at least `end`, so it leaves its loop and no call of `fn`
is added. -/
theorem pool_no_claim_after_store {ε : Type} (start end_ numThreads : Nat) (fn : WorkFn ε)
    (sched : List Nat) (s : State ε) (w : Nat) (hM : max start end_ + numThreads ≤ SIZE)
    (hr : run fn end_ (init start numThreads) sched = some s) (hst : hasStore s = true)
    (hw : s.threads[w]? = some Pc.fetch) :
    end_ ≤ s.current ∧
      ∃ s', step fn end_ s w = some s' ∧ s'.threads[w]? = some Pc.done ∧
        s'.log = s.log ++ [Event.fetchAdd w s.current] := by
  have hI := PoolInv_run hM fn sched s hr
  have hlive := live_pos_of_mem hw
  simp only [pcLive] at hlive
  have hge : end_ ≤ s.current := by
    rcases hI.phase with ⟨hA1, _, _, _⟩ | ⟨hB, _⟩
    · rw [hst] at hA1
      exact absurd hA1 (by simp)
    · rcases hB with ⟨h1, _⟩ | h1
      · exact h1
      · simp only [live] at h1
        omega
  refine ⟨hge, { s with
      current := (s.current + 1) % SIZE
      threads := s.threads.set w (if s.current ≥ end_ then Pc.done else Pc.call s.current)
      log := s.log ++ [Event.fetchAdd w s.current] }, by simp only [step, hw], ?_, rfl⟩
  simp [hge, lt_length_of_getElem? hw]

theorem sum_map_set {α : Type} (f : α → Nat) {l : List α} {w : Nat} {a : α}
    (h : l[w]? = some a) (b : α) :
    ((l.set w b).map f).sum + f a = (l.map f).sum + f b := by
  obtain ⟨l1, l2, h1, h2⟩ := set_decomp h
  rw [h2 b, h1]
  simp only [List.map_append, List.map_cons, List.sum_append, List.sum_cons]
  omega

theorem measure_step {ε : Type} (fn : WorkFn ε) (end_ : Nat) (he : end_ < SIZE) (s : State ε)
    (w : Nat) (s' : State ε) (h : step fn end_ s w = some s') :
    measure end_ s' < measure end_ s := by
  rcases step_cases h with ⟨hw, hs'⟩ | ⟨id, hw, _, hs'⟩ | ⟨id, e, hw, _, hs'⟩ | ⟨e, hw, _, hs'⟩ |
    ⟨hw, hs'⟩
  · by_cases hc : s.current < end_
    · have hge : ¬ s.current ≥ end_ := by omega
      have hmod : (s.current + 1) % SIZE = s.current + 1 := Nat.mod_eq_of_lt (by omega)
      have hsum := sum_map_set (pcWeight end_) hw (Pc.call s.current)
      simp only [pcWeight] at hsum
      rw [hs']
      simp only [measure, hge, if_false, hmod]
      omega
    · have hge : s.current ≥ end_ := by omega
      have hsum := sum_map_set (pcWeight end_) hw Pc.done
      simp only [pcWeight] at hsum
      rw [hs']
      simp only [measure, hge, if_true]
      omega
  · have hsum := sum_map_set (pcWeight end_) hw Pc.fetch
    simp only [pcWeight] at hsum
    rw [hs']
    simp only [measure]
    omega
  · have hsum := sum_map_set (pcWeight end_) hw (Pc.caught e)
    simp only [pcWeight] at hsum
    rw [hs']
    simp only [measure]
    omega
  · have hsum := sum_map_set (pcWeight end_) hw Pc.locked
    simp only [pcWeight] at hsum
    rw [hs']
    simp only [measure]
    omega
  · have hsum := sum_map_set (pcWeight end_) hw Pc.done
    simp only [pcWeight] at hsum
    rw [hs']
    simp only [measure]
    omega

theorem run_length_le {ε : Type} (fn : WorkFn ε) (end_ : Nat) (he : end_ < SIZE) :
    ∀ (sched : List Nat) (s s' : State ε), run fn end_ s sched = some s' →
      sched.length + measure end_ s' ≤ measure end_ s := by
  intro sched
  induction sched with
  | nil =>
    intro s s' h
    simp only [run, Option.some.injEq] at h
    simp [h]
  | cons w sched ih =>
    intro s s' h
    simp only [run] at h
    cases hs : step fn end_ s w with
    | none => rw [hs] at h; exact absurd h (by simp)
    | some s1 =>
      rw [hs] at h
      have h1 := ih s1 s' h
      have h2 := measure_step fn end_ he s w s1 hs
      simp only [List.length_cons]
      omega

theorem measure_init {ε : Type} (start end_ t : Nat) :
    measure end_ (init start t : State ε) = 2 * (end_ - start) + t * (2 * end_ + 3) := by
  simp only [measure, init]
  induction t with
  | zero => simp
  | succ t ih =>
    simp only [List.replicate_succ, List.map_cons, List.sum_cons, pcWeight] at ih ⊢
    have hmul : (t + 1) * (2 * end_ + 3) = t * (2 * end_ + 3) + (2 * end_ + 3) := by ring
    omega

/-- Every execution of the pool is finite: a schedule that the workers can follow from the
initial state has at most `2 * (end - start) + numThreads * (2 * end + 3)` steps. -/
theorem pool_terminates {ε : Type} (start end_ numThreads : Nat) (fn : WorkFn ε)
    (sched : List Nat) (s : State ε) (he : end_ < SIZE)
    (hr : run fn end_ (init start numThreads) sched = some s) :
    sched.length ≤ 2 * (end_ - start) + numThreads * (2 * end_ + 3) := by
  have h := run_length_le fn end_ he sched (init start numThreads) s hr
  rw [measure_init] at h
  omega

theorem MutexInv_step {ε : Type} (fn : WorkFn ε) (end_ : Nat) (s : State ε) (w : Nat)
    (s' : State ε) (hI : MutexInv s) (h : step fn end_ s w = some s') : MutexInv s' := by
  rcases step_cases h with ⟨hw, hs'⟩ | ⟨id, hw, _, hs'⟩ | ⟨id, e, hw, _, hs'⟩ | ⟨e, hw, _, hs'⟩ |
    ⟨hw, hs'⟩
  · unfold MutexInv at hI ⊢
    intro hm
    rw [hs'] at hm
    obtain ⟨w', h1⟩ := hI hm
    exact ⟨w', by rw [hs']; exact set_of_get _ h1 hw (by simp)⟩
  · unfold MutexInv at hI ⊢
    intro hm
    rw [hs'] at hm
    obtain ⟨w', h1⟩ := hI hm
    exact ⟨w', by rw [hs']; exact set_of_get _ h1 hw (by simp)⟩
  · unfold MutexInv at hI ⊢
    intro hm
    rw [hs'] at hm
    obtain ⟨w', h1⟩ := hI hm
    exact ⟨w', by rw [hs']; exact set_of_get _ h1 hw (by simp)⟩
  · unfold MutexInv
    intro _
    refine ⟨w, ?_⟩
    rw [hs']
    exact List.getElem?_set_self (lt_length_of_getElem? hw)
  · unfold MutexInv at hI ⊢
    intro hm
    rw [hs'] at hm
    exact absurd hm (by simp)

theorem pool_progress {ε : Type} (fn : WorkFn ε) (end_ : Nat) (s : State ε) (hI : MutexInv s)
    (hj : joined s = false) : ∃ w s', step fn end_ s w = some s' := by
  have hex : ∃ p ∈ s.threads, p ≠ Pc.done := by
    by_contra hno
    have hall : joined s = true := by
      simp only [joined, List.all_eq_true]
      intro p hp
      have : p = Pc.done := by
        by_contra hne
        exact hno ⟨p, hp, hne⟩
      rw [this]
    rw [hall] at hj
    exact absurd hj (by simp)
  obtain ⟨p, hp, hne⟩ := hex
  obtain ⟨w, hw⟩ := List.getElem?_of_mem hp
  have hsome : ∃ w, (step fn end_ s w).isSome = true := by
    cases p with
    | fetch => exact ⟨w, by simp [step, hw]⟩
    | call id =>
      cases hf : fn id w with
      | none => exact ⟨w, by simp [step, hw, hf]⟩
      | some e => exact ⟨w, by simp [step, hw, hf]⟩
    | caught e =>
      by_cases hm : s.lastExceptMutex = true
      · obtain ⟨w', hw'⟩ := hI hm
        exact ⟨w', by simp [step, hw']⟩
      · exact ⟨w, by simp [step, hw, hm]⟩
    | locked => exact ⟨w, by simp [step, hw]⟩
    | done => exact absurd rfl hne
  obtain ⟨w', hw'⟩ := hsome
  exact ⟨w', Option.isSome_iff_exists.mp hw'⟩

theorem pool_completes_from {ε : Type} (fn : WorkFn ε) (end_ : Nat) (he : end_ < SIZE) :
    ∀ (n : Nat) (s : State ε), measure end_ s ≤ n → MutexInv s →
      ∃ sched s', run fn end_ s sched = some s' ∧ joined s' = true := by
  intro n
  induction n with
  | zero =>
    intro s hm hI
    by_cases hj : joined s = true
    · exact ⟨[], s, rfl, hj⟩
    · obtain ⟨w, s1, h1⟩ := pool_progress fn end_ s hI (by simpa using hj)
      have := measure_step fn end_ he s w s1 h1
      omega
  | succ n ih =>
    intro s hm hI
    by_cases hj : joined s = true
    · exact ⟨[], s, rfl, hj⟩
    · obtain ⟨w, s1, h1⟩ := pool_progress fn end_ s hI (by simpa using hj)
      have hlt := measure_step fn end_ he s w s1 h1
      obtain ⟨sched, s', h2, h3⟩ := ih s1 (by omega) (MutexInv_step fn end_ s w s1 hI h1)
      exact ⟨w :: sched, s', by simp only [run, h1, h2], h3⟩

/-- Every execution of the pool can be continued until all workers have left their loops:
from each state the workers can reach, some schedule leads to a state in which every
worker is finished, so the joins of lines 52-54 return. -/
theorem pool_completes {ε : Type} (start end_ numThreads : Nat) (fn : WorkFn ε)
    (sched : List Nat) (s : State ε) (he : end_ < SIZE)
    (hr : run fn end_ (init start numThreads) sched = some s) :
    ∃ rest s', run fn end_ (init start numThreads) (sched ++ rest) = some s' ∧
      joined s' = true := by
  have hI : MutexInv s :=
    run_invariant fn end_ MutexInv (MutexInv_step fn end_) sched (init start numThreads) s
      (by unfold MutexInv; intro h; simp [init] at h) hr
  obtain ⟨rest, s', h1, h2⟩ := pool_completes_from fn end_ he (measure end_ s) s (Nat.le_refl _) hI
  exact ⟨rest, s', by rw [run_append, hr]; exact h1, h2⟩

/-- With `numThreads = 0` and a probe value `h` other than 0, `ParallelFor` behaves as with
`numThreads = h`. -/
theorem ParallelFor_default_threads {ε : Type} (h start end_ : Nat) (fn : WorkFn ε)
    (fuel : Nat) (sched : List Nat) (hh : h ≠ 0) :
    ParallelFor h start end_ 0 fn fuel sched = ParallelFor h start end_ h fn fuel sched := by
  have h0 : ¬ h ≤ 0 := by omega
  simp only [ParallelFor, Nat.le_refl, if_true, h0, if_false]

/-- The theorem `pool_exactly_once` at `ParallelFor(0, 3, 2, fn)` with a complete schedule of
the two workers. -/
theorem pool_exactly_once_example :
    List.Perm
      ((⟨[(0, 0), (1, 1), (2, 0)], none⟩ : Outcome Unit).calls.map Prod.fst)
      (List.range' 0 (3 - 0)) ∧
    (⟨[(0, 0), (1, 1), (2, 0)], none⟩ : Outcome Unit).raised = none :=
  pool_exactly_once 0 0 3 2 neverRaises 0 [0, 1, 0, 1, 0, 0, 1, 0] ⟨[(0, 0), (1, 1), (2, 0)], none⟩
    (by decide) (by decide) (fun _ _ => rfl) (by decide)

set_option maxRecDepth 100000 in
/-- The theorem `pool_single_raise` at `ParallelFor(0, 100, 4, fn)` with `fn` raising only for
index 50, for the schedule in which worker 0 executes the indices 0, ..., 50 and the other
workers then leave their loops. -/
theorem pool_single_raise_example :
    ((⟨(List.range' 0 51).map (fun i => (i, 0)), some 50⟩ : Outcome Nat).calls.map Prod.fst).Nodup ∧
    ∃ w e, (50, w) ∈ (⟨(List.range' 0 51).map (fun i => (i, 0)), some 50⟩ : Outcome Nat).calls ∧
      raisesAt 50 50 w = some e ∧
      (⟨(List.range' 0 51).map (fun i => (i, 0)), some 50⟩ : Outcome Nat).raised = some e :=
  pool_single_raise 0 0 100 4 (raisesAt 50) 0 (soloSched 0 50 ++ [0, 0, 0, 0, 1, 2, 3])
    ⟨(List.range' 0 51).map (fun i => (i, 0)), some 50⟩ 50 (by decide) (by decide) (by decide)
    (by decide) (fun _ => by simp [raisesAt]) (fun i _ hi => by simp [raisesAt, hi])
    (by decide)

/-! ## The error slot -/

theorem flatMap_set {α β : Type} (f : α → List β) {l : List α} {w : Nat} {a : α}
    (h : l[w]? = some a) (b : α) :
    List.Perm (f a ++ (l.set w b).flatMap f) (f b ++ l.flatMap f) := by
  obtain ⟨l1, l2, h1, h2⟩ := set_decomp h
  rw [h2 b, h1]
  simp only [List.flatMap_append, List.flatMap_cons]
  have e1 : List.Perm (f a ++ (l1.flatMap f ++ (f b ++ l2.flatMap f)))
      (f a ++ (f b ++ (l1.flatMap f ++ l2.flatMap f))) := by
    apply List.Perm.append_left
    rw [← List.append_assoc, ← List.append_assoc]
    exact List.Perm.append_right _ List.perm_append_comm
  have e2 : List.Perm (f b ++ (l1.flatMap f ++ (f a ++ l2.flatMap f)))
      (f b ++ (f a ++ (l1.flatMap f ++ l2.flatMap f))) := by
    apply List.Perm.append_left
    rw [← List.append_assoc, ← List.append_assoc]
    exact List.Perm.append_right _ List.perm_append_comm
  refine e1.trans (List.Perm.trans ?_ e2.symm)
  rw [← List.append_assoc, ← List.append_assoc (f b)]
  exact List.Perm.append_right _ List.perm_append_comm

theorem caughtErrs_set {ε : Type} {s s' : State ε} {w : Nat} {a : Pc ε} (b : Pc ε)
    (hw : s.threads[w]? = some a) (hth : s'.threads = s.threads.set w b) :
    List.Perm (pcErrs a ++ caughtErrs s') (pcErrs b ++ caughtErrs s) := by
  simp only [caughtErrs, hth]
  exact flatMap_set pcErrs hw b

theorem captured_perm_raised_step {ε : Type} (fn : WorkFn ε) (end_ : Nat) (s : State ε)
    (w : Nat) (s' : State ε)
    (hP : List.Perm (captures s ++ caughtErrs s) (raisedErrs fn (calls s)))
    (h : step fn end_ s w = some s') :
    List.Perm (captures s' ++ caughtErrs s') (raisedErrs fn (calls s')) := by
  rcases step_cases h with ⟨hw, hs'⟩ | ⟨id0, hw, hf, hs'⟩ | ⟨id0, e0, hw, hf, hs'⟩ |
    ⟨e0, hw, _, hs'⟩ | ⟨hw, hs'⟩
  · have hcalls : calls s' = calls s := by rw [hs']; simp [calls]
    have hcap : captures s' = captures s := by rw [hs']; simp [captures]
    have hth : s'.threads =
        s.threads.set w (if s.current ≥ end_ then Pc.done else Pc.call s.current) := by rw [hs']
    have hc := caughtErrs_set _ hw hth
    have hb : pcErrs (if s.current ≥ end_ then Pc.done else Pc.call s.current : Pc ε) = [] := by
      split <;> rfl
    rw [hb] at hc
    simp only [pcErrs, List.nil_append] at hc
    rw [hcalls, hcap]
    exact (List.Perm.append_left _ hc).trans hP
  · have hcalls : calls s' = calls s ++ [(id0, w)] := by rw [hs']; simp [calls]
    have hcap : captures s' = captures s := by rw [hs']; simp [captures]
    have hth : s'.threads = s.threads.set w Pc.fetch := by rw [hs']
    have hc := caughtErrs_set _ hw hth
    simp only [pcErrs, List.nil_append] at hc
    have hr : raisedErrs fn (calls s') = raisedErrs fn (calls s) := by
      rw [hcalls]; simp [raisedErrs, List.filterMap_append, hf]
    rw [hr, hcap]
    exact (List.Perm.append_left _ hc).trans hP
  · have hcalls : calls s' = calls s ++ [(id0, w)] := by rw [hs']; simp [calls]
    have hcap : captures s' = captures s := by rw [hs']; simp [captures]
    have hth : s'.threads = s.threads.set w (Pc.caught e0) := by rw [hs']
    have hc := caughtErrs_set _ hw hth
    simp only [pcErrs, List.nil_append, List.singleton_append] at hc
    have hr : raisedErrs fn (calls s') = raisedErrs fn (calls s) ++ [e0] := by
      rw [hcalls]; simp [raisedErrs, List.filterMap_append, hf]
    rw [hr, hcap]
    refine (List.Perm.append_left _ hc).trans ?_
    refine List.perm_middle.trans ?_
    exact (List.Perm.cons _ hP).trans (List.perm_append_singleton _ _).symm
  · have hcalls : calls s' = calls s := by rw [hs']; simp [calls]
    have hcap : captures s' = captures s ++ [e0] := by rw [hs']; simp [captures]
    have hth : s'.threads = s.threads.set w Pc.locked := by rw [hs']
    have hc := caughtErrs_set _ hw hth
    simp only [pcErrs, List.nil_append, List.singleton_append] at hc
    rw [hcalls, hcap, List.append_assoc, List.singleton_append]
    exact (List.Perm.append_left _ hc).trans hP
  · have hcalls : calls s' = calls s := by rw [hs']; simp [calls]
    have hcap : captures s' = captures s := by rw [hs']; simp [captures]
    have hth : s'.threads = s.threads.set w Pc.done := by rw [hs']
    have hc := caughtErrs_set _ hw hth
    simp only [pcErrs, List.nil_append] at hc
    rw [hcalls, hcap]
    exact (List.Perm.append_left _ hc).trans hP

theorem caughtErrs_of_joined {ε : Type} {s : State ε} (h : joined s = true) :
    caughtErrs s = [] := by
  have hall := all_done_of_joined h
  simp only [caughtErrs]
  generalize s.threads = ts at hall
  induction ts with
  | nil => rfl
  | cons p ts ih =>
    have hp : p = Pc.done := hall p (List.mem_cons_self _ _)
    have := ih (fun q hq => hall q (List.mem_cons_of_mem _ hq))
    simp [List.flatMap_cons, hp, pcErrs, this]

/-- C3, amended: for every thread count above 1 and every complete execution, each raising
call of `fn` is captured exactly once (the errors assigned to `lastException` are a
rearrangement of the errors raised by the calls), every capture overwrites `lastException`
whatever it held (the step of a worker in the handler sets the slot to its error, and after
every prefix of the execution the slot holds the error captured last), and the error
re-raised to the caller is the one that was captured last; nothing is raised when no call
raised. -/
theorem last_captured_error_is_raised {ε : Type} (hardware_concurrency start end_ numThreads : Nat)
    (fn : WorkFn ε) (fuel : Nat) (sched : List Nat) (out : Outcome ε) (hn : 1 < numThreads)
    (h : ParallelFor hardware_concurrency start end_ numThreads fn fuel sched = some out) :
    ∃ s, run fn end_ (init start numThreads) sched = some s ∧
      out.calls = calls s ∧
      out.raised = (captures s).getLast? ∧
      List.Perm (captures s) (raisedErrs fn out.calls) ∧
      (raisedErrs fn out.calls = [] → out.raised = none) ∧
      (∀ k sk, run fn end_ (init start numThreads) (sched.take k) = some sk →
        sk.lastException = (captures sk).getLast?) ∧
      (∀ (s0 : State ε) (w : Nat) (e : ε), s0.threads[w]? = some (Pc.caught e) →
        s0.lastExceptMutex = false →
        (step fn end_ s0 w).map (fun s1 => (s1.lastException, captures s1)) =
          some (some e, captures s0 ++ [e])) := by
  obtain ⟨s, hr, hj, rfl⟩ := ParallelFor_pool hn h
  have hslot : s.lastException = (captures s).getLast? :=
    run_invariant fn end_ (fun s => s.lastException = (captures s).getLast?)
      (slot_holds_last_capture fn end_) sched (init start numThreads) s rfl hr
  have hperm : List.Perm (captures s) (raisedErrs fn (calls s)) := by
    have hP : List.Perm (captures s ++ caughtErrs s) (raisedErrs fn (calls s)) :=
      run_invariant fn end_
        (fun s => List.Perm (captures s ++ caughtErrs s) (raisedErrs fn (calls s)))
        (captured_perm_raised_step fn end_) sched (init start numThreads) s
        (by simp [captures, caughtErrs, raisedErrs, calls, init, pcErrs]) hr
    rw [caughtErrs_of_joined hj, List.append_nil] at hP
    exact hP
  refine ⟨s, hr, rfl, hslot, hperm, ?_, ?_, ?_⟩
  · intro h0
    have hnil : captures s = [] := by
      have := hperm
      rw [show raisedErrs fn (calls s) = [] from h0] at this
      exact List.Perm.eq_nil this
    show s.lastException = none
    rw [hslot, hnil]
    rfl
  · intro k sk hk
    exact run_invariant fn end_ (fun s => s.lastException = (captures s).getLast?)
      (slot_holds_last_capture fn end_) (sched.take k) (init start numThreads) sk rfl hk
  · intro s0 w e hw hm
    simp [step, hw, hm, captures]

/-- The amended C3 at two workers whose calls both raise: index 1 is captured first and
index 0 last, and the caller receives the error of index 0. -/
theorem last_captured_error_is_raised_witness :
    ∃ s, run alwaysRaises 2 (init 0 2) [0, 1, 1, 0, 1, 1, 0, 0] = some s ∧
      (⟨[(1, 1), (0, 0)], some 0⟩ : Outcome Nat).calls = calls s ∧
      (⟨[(1, 1), (0, 0)], some 0⟩ : Outcome Nat).raised = (captures s).getLast? ∧
      List.Perm (captures s)
        (raisedErrs alwaysRaises (⟨[(1, 1), (0, 0)], some 0⟩ : Outcome Nat).calls) ∧
      (raisedErrs alwaysRaises (⟨[(1, 1), (0, 0)], some 0⟩ : Outcome Nat).calls = [] →
        (⟨[(1, 1), (0, 0)], some 0⟩ : Outcome Nat).raised = none) ∧
      (∀ k sk, run alwaysRaises 2 (init 0 2) ([0, 1, 1, 0, 1, 1, 0, 0].take k) = some sk →
        sk.lastException = (captures sk).getLast?) ∧
      (∀ (s0 : State Nat) (w : Nat) (e : Nat), s0.threads[w]? = some (Pc.caught e) →
        s0.lastExceptMutex = false →
        (step alwaysRaises 2 s0 w).map (fun s1 => (s1.lastException, captures s1)) =
          some (some e, captures s0 ++ [e])) :=
  last_captured_error_is_raised 0 0 2 2 alwaysRaises 0 [0, 1, 1, 0, 1, 1, 0, 0]
    ⟨[(1, 1), (0, 0)], some 0⟩ (by decide) (by decide)

end Hnsw
